import Mathlib

/-!
Shallow embedding of the Perlite vault normalizer
(src/normalizer/{links,indexer,parse}.py and src/deploy/webhook.py).

Paths are modelled as lists of segments relative to the vault root; a
filesystem is the finite list of regular files under the root (each with its
text content).  Python `pathlib` parsing, `os.path.relpath`, the regex-driven
rewrite passes and the metadata pipeline are all translated into executable
Lean functions below; theorems about the frozen claims follow the definitions.
-/

namespace Perlite

/-! ## Python-style string helpers -/

/-- Python `str` whitespace (`\s` over ASCII): space, tab, newline, CR, VT, FF. -/
def isPyWs (c : Char) : Bool :=
  c = ' ' || c = '\t' || c = '\n' || c = '\r' || c = '\x0b' || c = '\x0c'

/-- Python `str.strip()` (ASCII whitespace). -/
def pyStrip (s : String) : String :=
  ⟨(s.data.dropWhile isPyWs).reverse.dropWhile isPyWs |>.reverse⟩

/-- `a.startswith(b)`. -/
def pyStartsWith (s pre : String) : Bool :=
  pre.data.isPrefixOf s.data

/-- `a.endswith(b)`. -/
def pyEndsWith (s suf : String) : Bool :=
  suf.data.isSuffixOf s.data

/-- Split at the first occurrence of `sep`: `s.split(sep, 1)`.
Returns the part before `sep` and, when `sep` occurs, the part after it. -/
def pySplitFirst (sep : Char) (s : String) : String × Option String :=
  go [] s.data
where
  go (acc : List Char) : List Char → String × Option String
    | [] => (⟨acc.reverse⟩, none)
    | c :: rest => if c = sep then (⟨acc.reverse⟩, some ⟨rest⟩) else go (c :: acc) rest

/-- `list(dict.fromkeys(l))`: deduplicate keeping first occurrences. -/
def pyDedup {α : Type} [DecidableEq α] (l : List α) : List α :=
  go [] l
where
  go (seen : List α) : List α → List α
    | [] => []
    | x :: rest => if x ∈ seen then go seen rest else x :: go (x :: seen) rest

/-- Deduplicate by a key function, keeping first occurrences (the link dedup). -/
def pyDedupBy {α κ : Type} [DecidableEq κ] (key : α → κ) (l : List α) : List α :=
  go [] l
where
  go (seen : List κ) : List α → List α
    | [] => []
    | x :: rest => if key x ∈ seen then go seen rest else x :: go (key x :: seen) rest

/-- `str.split(sep)` on character lists: always at least one chunk, chunks
contain no separator. -/
def splitChar (sep : Char) : List Char → List (List Char)
  | [] => [[]]
  | c :: rest =>
    if c = sep then [] :: splitChar sep rest
    else
      match splitChar sep rest with
      | chunk :: more => (c :: chunk) :: more
      | [] => [[c]]  -- unreachable: the result is never empty

/-- Python `str.splitlines()` restricted to `\n` separators (the modelled
inputs contain no `\r`/`\v`/`\f` line breaks). -/
def pySplitLines (s : String) : List String :=
  if s = "" then []
  else
    let parts := (splitChar '\n' s.data).map (fun l => (⟨l⟩ : String))
    if s.data.getLast? = some '\n' then parts.dropLast else parts

/-! ## Path model (Python `pathlib.PurePosixPath` on root-relative paths) -/

/-- A path is a list of segments.  `Path(s)` parsing: split on `/`, drop empty
segments and `"."`, keep `".."`; a leading `/` is irrelevant because the code
always strips it (`str(candidate).lstrip("/")`). -/
def pathParse (s : String) : List String :=
  ((splitChar '/' s.data).map (fun l => (⟨l⟩ : String))).filter
    (fun seg => seg ≠ "" && seg ≠ ".")

/-- `sep.join` on the underlying characters. -/
def joinChars (sep : Char) : List (List Char) → List Char
  | [] => []
  | [x] => x
  | x :: rest => x ++ sep :: joinChars sep rest

/-- `"/".join(segs)` characters. -/
def joinSegsChars (l : List (List Char)) : List Char := joinChars '/' l

/-- `sep.join(parts)` on strings. -/
def joinStr (sep : Char) (parts : List String) : String :=
  ⟨joinChars sep (parts.map String.data)⟩

/-- `Path.as_posix()`: the empty part list renders as `"."`. -/
def joinPosix (segs : List String) : String :=
  if segs.isEmpty then "." else ⟨joinSegsChars (segs.map String.data)⟩

/-- `Path.name`: the final component (empty for the empty path). -/
def segName (segs : List String) : String :=
  (segs.getLast?).getD ""

/-- Index of the suffix dot in a name per `pathlib`:
`i = name.rfind('.')`, valid iff `0 < i < len(name) - 1`. -/
def suffixIdx (name : String) : Option Nat :=
  let l := name.data
  match (l.reverse.findIdx? (· = '.')) with
  | none => none
  | some rj =>
    let i := l.length - 1 - rj
    if 0 < i ∧ i < l.length - 1 then some i else none

/-- `PurePath.suffix` of a single name. -/
def pySuffix (name : String) : String :=
  match suffixIdx name with
  | some i => ⟨name.data.drop i⟩
  | none => ""

/-- `PurePath.stem` of a single name. -/
def pyStem (name : String) : String :=
  match suffixIdx name with
  | some i => ⟨name.data.take i⟩
  | none => name

/-- `Path(p).suffix` for a parsed path. -/
def pathSuffix (segs : List String) : String := pySuffix (segName segs)

/-- `Path(p).stem` for a parsed path. -/
def pathStem (segs : List String) : String := pyStem (segName segs)

/-- `Path(s).stem` for a raw string. -/
def pyStemStr (s : String) : String := pathStem (pathParse s)

/-- `p.with_suffix("")`: replace the final name by its stem. -/
def withSuffixEmpty (segs : List String) : List String :=
  match segs with
  | [] => []
  | _ => segs.dropLast ++ [pyStem (segName segs)]

/-- ASCII lower-casing of one character. -/
def charLower (c : Char) : Char :=
  if 'A' ≤ c ∧ c ≤ 'Z' then Char.ofNat (c.toNat + 32) else c

/-- ASCII lower-casing (`str.lower()` on the extensions in play). -/
def pyLower (s : String) : String := ⟨s.data.map charLower⟩

def MD_EXTS : List String := [".md", ".markdown", ".mdown"]
def IMG_EXTS : List String := [".png", ".jpg", ".jpeg", ".gif", ".webp", ".svg", ".pdf"]
def ASSET_EXTS : List String :=
  IMG_EXTS ++ [".mp4", ".m4a", ".webm", ".mov", ".mp3", ".wav", ".ogg"]

/-- `links.strip_md_ext`. -/
def strip_md_ext (s : String) : String :=
  let p := pathParse s
  if MD_EXTS.contains (pyLower (pathSuffix p)) then joinPosix (withSuffixEmpty p)
  else joinPosix p

/-- `links.is_md` on a parsed path. -/
def isMdPath (segs : List String) : Bool :=
  MD_EXTS.contains (pyLower (pathSuffix segs))

/-- `Path.resolve()` on a root-relative segment list: collapse `".."`.
`none` when the path escapes above the vault root (the live code would then
consult the host filesystem outside the vault, which is out of scope). -/
def normSegs (segs : List String) : Option (List String) :=
  go [] segs
where
  go (acc : List String) : List String → Option (List String)
    | [] => some acc.reverse
    | s :: rest =>
      if s = ".." then
        match acc with
        | [] => none
        | _ :: acc' => go acc' rest
      else go (s :: acc) rest

/-- `(current_file.parent / candidate).resolve()` relative to the root. -/
def resolveRel (current cand : List String) : Option (List String) :=
  normSegs (current.dropLast ++ cand)

/-- Longest common segment prefix. -/
def commonPrefixLen : List String → List String → Nat
  | a :: as', b :: bs => if a = b then commonPrefixLen as' bs + 1 else 0
  | _, _ => 0

/-- `os.path.relpath(target, start=base)` on root-relative segment lists. -/
def relpathSegs (base target : List String) : List String :=
  let k := commonPrefixLen base target
  List.replicate (base.length - k) ".." ++ target.drop k

/-- `links.to_rel`: the relpath rendered as a POSIX string (`"."` if empty). -/
def to_rel (base target : List String) : String :=
  joinPosix (relpathSegs base target)

/-! ## Filesystem model -/

/-- The vault: every regular file under the root, with its text content.
Paths are root-relative segment lists. -/
structure FS where
  files : List (List String × String)

/-- Well-formedness of a vault (what a real directory tree guarantees):
segments are nonempty, contain no `/`, are not `"."`/`".."`, paths are
nonempty and pairwise distinct. -/
def FS.wfb (fs : FS) : Bool :=
  (fs.files.map Prod.fst).Nodup
  && fs.files.all (fun f =>
       !f.1.isEmpty
       && f.1.all (fun seg =>
            seg ≠ "" && seg ≠ "." && seg ≠ ".." && !seg.data.contains '/'))

def FS.paths (fs : FS) : List (List String) := fs.files.map Prod.fst

def FS.isFile (fs : FS) (p : List String) : Bool :=
  fs.files.any (fun f => f.1 = p)

/-- `p` is an existing directory: a strict prefix of some file's path
(the root `[]` included). -/
def FS.isDir (fs : FS) (p : List String) : Bool :=
  fs.files.any (fun f => p.isPrefixOf f.1 && p ≠ f.1)

/-- `Path.exists()` inside the vault. -/
def FS.pexists (fs : FS) (p : List String) : Bool :=
  fs.isFile p || fs.isDir p

/-- Content of a file (empty for a non-file). -/
def FS.content (fs : FS) (p : List String) : String :=
  ((fs.files.find? (fun f => f.1 = p)).map Prod.snd).getD ""

/-- Code-point lexicographic strict comparison (Python `str <`). -/
def strLtChars : List Char → List Char → Bool
  | [], [] => false
  | [], _ :: _ => true
  | _ :: _, [] => false
  | a :: as', b :: bs => if a = b then strLtChars as' bs else decide (a.toNat < b.toNat)

/-- Python `str <`. -/
def strLt (a b : String) : Bool := strLtChars a.data b.data

/-- Python `str <=`. -/
def strLe (a b : String) : Bool := a = b || strLt a b

/-- Lexicographic comparison of segment lists, each segment compared as a
string: this is how `pathlib` orders `Path` objects (by their parts tuple). -/
def segsLt : List String → List String → Bool
  | [], [] => false
  | [], _ :: _ => true
  | _ :: _, [] => false
  | a :: as', b :: bs => if a = b then segsLt as' bs else strLt a b

/-- Insertion sort of paths: `sorted(ROOT.rglob(...))` orders `Path`
objects by their parts tuple. -/
def sortByStr (l : List (List String)) : List (List String) :=
  go l
where
  insert (x : List String) : List (List String) → List (List String)
    | [] => [x]
    | y :: rest =>
      if x = y || segsLt x y then x :: y :: rest else y :: insert x rest
  go : List (List String) → List (List String)
    | [] => []
    | x :: rest => insert x (go rest)

/-- `Resolver.ALL_MD`: all Markdown files, sorted. -/
def FS.sortedMd (fs : FS) : List (List String) :=
  sortByStr (fs.paths.filter isMdPath)

/-- `BASENAME_INDEX.get(key, [])`: the files (in sorted scan order) whose
name or stem equals `key`; each file is registered under both keys, so a
lookup collects the files matching either. -/
def FS.indexGet (fs : FS) (key : String) : List (List String) :=
  fs.sortedMd.filter (fun p => segName p = key || pathStem p = key)

/-! ## Regex scanners

The three patterns the normalizer relies on are simple enough for
direct deterministic scanners:

* `MD_LINK   = (!?)\[(?P<text>[^\]]*)\]\((?P<url>[^)]+)\)`
* `WIKI_LINK = (?P<bang>!?)\[\[(?P<body>.+?)\]\]`   (`.` excludes `\n`)
* `INLINE_TAG = (?<!\w)#([A-Za-z0-9/_-]+)`

`re.sub`/`re.finditer` scan left to right, trying a match at each position
and resuming after the end of each (nonempty) match. -/

/-- A Markdown-link match: the optional `!`, the link text, the url, and the
total matched length. -/
structure MdM where
  bang : Bool
  text : String
  url : String
  len : Nat
  deriving DecidableEq, Repr

/-- Characters up to (excluding) the first `stop`, plus the rest after it;
`none` if `stop` never occurs. -/
def scanUntil (stop : Char) : List Char → Option (List Char × List Char)
  | [] => none
  | c :: rest =>
    if c = stop then some ([], rest)
    else (scanUntil stop rest).map (fun r => (c :: r.1, r.2))

/-- Try `MD_LINK` at the head of `s`. -/
def mdTryAt (s : List Char) : Option MdM :=
  match s with
  | '!' :: '[' :: rest => (inner rest).map (fun m => { m with bang := true, len := m.len + 2 })
  | '[' :: rest => (inner rest).map (fun m => { m with len := m.len + 1 })
  | _ => none
where
  /-- after the opening `[`: `[^\]]*\]\([^)]+\)`. -/
  inner (rest : List Char) : Option MdM :=
    match scanUntil ']' rest with
    | none => none
    | some (text, afterBr) =>
      match afterBr with
      | '(' :: rest2 =>
        match scanUntil ')' rest2 with
        | none => none
        | some (url, _) =>
          if url.isEmpty then none
          else some { bang := false, text := ⟨text⟩, url := ⟨url⟩,
                      len := text.length + url.length + 3 }
      | _ => none

/-- A wikilink match. -/
structure WikiM where
  bang : Bool
  body : String
  len : Nat
  deriving DecidableEq, Repr

/-- The lazy body of `\[\[(.+?)\]\]`: the shortest nonempty run of
non-newline characters followed by `]]`; returns the body and its length. -/
def wikiBody (s : List Char) : Option (List Char) :=
  match s with
  | c :: rest => if c = '\n' then none else go [c] rest
  | [] => none
where
  go (acc : List Char) : List Char → Option (List Char)
    | c :: rest =>
      if c = ']' ∧ rest.head? = some ']' then some acc.reverse
      else if c = '\n' then none
      else go (c :: acc) rest
    | [] => none

/-- Try `WIKI_LINK` at the head of `s`. -/
def wikiTryAt (s : List Char) : Option WikiM :=
  match s with
  | '!' :: '[' :: '[' :: rest =>
    (wikiBody rest).map (fun b => { bang := true, body := ⟨b⟩, len := b.length + 5 })
  | '[' :: '[' :: rest =>
    (wikiBody rest).map (fun b => { bang := false, body := ⟨b⟩, len := b.length + 4 })
  | _ => none

/-- Generic `re.sub(pattern, repl, s)` driver: `try s'` returns the matched
length (always positive for the patterns above) and the replacement.  The
fuel argument (instantiated with the string length, an upper bound on the
number of scan steps) makes the recursion structural. -/
def subGoF (try_ : List Char → Option (Nat × List Char)) : Nat → List Char → List Char
  | 0, s => s  -- out of fuel: unreachable when fuel ≥ length
  | _ + 1, [] => []
  | fuel + 1, c :: rest =>
    match try_ (c :: rest) with
    | some (n, repl) =>
      if n = 0 then c :: subGoF try_ fuel rest  -- unreachable: matches are nonempty
      else repl ++ subGoF try_ fuel (rest.drop (n - 1))
    | none => c :: subGoF try_ fuel rest

/-- `re.sub` over a whole character list. -/
def subGo (try_ : List Char → Option (Nat × List Char)) (s : List Char) : List Char :=
  subGoF try_ s.length s

/-- Generic `re.finditer` driver collecting matches left to right. -/
def findGoF {M : Type} (try_ : List Char → Option (M × Nat)) : Nat → List Char → List M
  | 0, _ => []
  | _ + 1, [] => []
  | fuel + 1, c :: rest =>
    match try_ (c :: rest) with
    | some (m, n) =>
      if n = 0 then findGoF try_ fuel rest
      else m :: findGoF try_ fuel (rest.drop (n - 1))
    | none => findGoF try_ fuel rest

/-- `re.finditer` over a whole character list. -/
def findGo {M : Type} (try_ : List Char → Option (M × Nat)) (s : List Char) : List M :=
  findGoF try_ s.length s

/-- All `WIKI_LINK` matches of a string. -/
def wikiMatches (s : String) : List WikiM :=
  findGo (fun l => (wikiTryAt l).map (fun m => (m, m.len))) s.data

/-- All `MD_LINK` matches of a string. -/
def mdMatches (s : String) : List MdM :=
  findGo (fun l => (mdTryAt l).map (fun m => (m, m.len))) s.data

/-- `re.sub(WIKI_LINK, repl, s)` with a replacement function. -/
def wikiSub (repl : WikiM → String) (s : String) : String :=
  ⟨subGo (fun l => (wikiTryAt l).map (fun m => (m.len, (repl m).data))) s.data⟩

/-- `re.sub(MD_LINK, repl, s)` with a replacement function. -/
def mdSub (repl : MdM → String) (s : String) : String :=
  ⟨subGo (fun l => (mdTryAt l).map (fun m => (m.len, (repl m).data))) s.data⟩

/-- `\w` (ASCII). -/
def isWordChar (c : Char) : Bool := c.isAlphanum || c = '_'

/-- The `INLINE_TAG` character class `[A-Za-z0-9/_-]`. -/
def isTagChar (c : Char) : Bool := c.isAlphanum || c = '/' || c = '_' || c = '-'

/-- `INLINE_TAG.finditer`: `#tag` occurrences not preceded by a word char,
collecting the tag bodies. -/
def inlineTagMatches (s : String) : List String :=
  go s.data.length none s.data
where
  go (fuel : Nat) (prev : Option Char) (l : List Char) : List String :=
    match fuel, l with
    | 0, _ => []
    | _ + 1, [] => []
    | fuel + 1, '#' :: rest =>
      if (prev.map isWordChar).getD false then go fuel (some '#') rest
      else
        let tag := rest.takeWhile isTagChar
        if tag.isEmpty then go fuel (some '#') rest
        else (⟨tag⟩ : String) :: go fuel (some (tag.getLastD '#')) (rest.drop tag.length)
    | fuel + 1, c :: rest => go fuel (some c) rest

/-- `re.match(r'^(?:[a-zA-Z][a-zA-Z0-9+.-]*:|//)', url)`: external-scheme test. -/
def schemeLike (u : String) : Bool :=
  pyStartsWith u "//" ||
  (match u.data with
   | c :: rest =>
     c.isAlpha &&
     (match rest.dropWhile (fun d => d.isAlphanum || d = '+' || d = '.' || d = '-') with
      | ':' :: _ => true
      | _ => false)
   | [] => false)

/-! ## `links.Resolver`: core resolution -/

/-- Truthiness of the anchor: re-attached only when present and nonempty
(`if anchor:`). -/
def anchorTruthy (a : Option String) : Bool :=
  match a with
  | some s => s ≠ ""
  | none => false

/-- `Resolver._collect_conflicts`. -/
def collectConflicts (fs : FS) (stemOrName : String) : List (List String) :=
  pyDedup (fs.indexGet stemOrName ++ fs.indexGet (pyStemStr stemOrName))

/-- `Resolver.find_target_path`: resolve a note target to a vault-rooted
path without the Markdown extension, keeping a nonempty `#anchor`.
A candidate path that escapes above the vault root (`resolveRel = none`) is
treated as non-existing; the live code would consult the host filesystem
there, which is outside the model (no theorem below takes that branch). -/
def find_target_path (fs : FS) (current : List String) (raw0 : String) : String :=
  let (rawPre, anchor) := pySplitFirst '#' raw0
  let raw := pyStrip rawPre
  if raw = "" then (if anchorTruthy anchor then "#" ++ anchor.getD "" else "")
  else
    let cand := pathParse raw
    let out :=
      match resolveRel current cand with
      | some ap =>
        if fs.pexists ap then strip_md_ext (joinPosix ap)
        else fallback fs cand
      | none => fallback fs cand
    if anchorTruthy anchor then out ++ "#" ++ anchor.getD "" else out
where
  /-- the basename-index fallback: unique match or the literal typed path. -/
  fallback (fs : FS) (cand : List String) : String :=
    let bn := segName cand
    let uniq := pyDedup (fs.indexGet bn ++ fs.indexGet (strip_md_ext bn))
    match uniq with
    | [p] => strip_md_ext (joinPosix p)
    | _ => strip_md_ext (joinPosix cand)

/-- The candidate-suffix uniqueness test inside
`Resolver._shortest_suffix_from_vault`. -/
def uniqueSuffix (conflictNoext : List String) (target sfx : String) : Bool :=
  let ms := conflictNoext.filter (fun c => pyEndsWith c ("/" ++ sfx) || c = sfx)
  ms.length = 1 && ms.headD "" = target

/-- The conflict set of `_shortest_suffix_from_vault`, as extension-stripped
root-relative strings (a Python `set`, here deduplicated). -/
def conflictNoextOf (fs : FS) (stem : String) : List String :=
  pyDedup ((collectConflicts fs stem).map (fun p => strip_md_ext (joinPosix p)))

/-- `Resolver._shortest_suffix_from_vault`.  Candidate suffixes take the last
2, 3, … segments; the Python sort key (segment count, length) leaves that
order unchanged.  (For the empty part list — target `"."` — the Python code
would raise `IndexError` on `candidates[0]`; that branch returns the target
itself here and is never exercised by the theorems.) -/
def shortest_suffix_from_vault (fs : FS) (target : String) : String :=
  let parts := pathParse target
  let stem := segName parts
  let conflictNoext := conflictNoextOf fs stem
  if parts.length = 1 then stem
  else
    let candidates :=
      (List.range' 2 (parts.length - 1)).map
        (fun take => joinPosix (parts.drop (parts.length - take)))
    match candidates.find? (uniqueSuffix conflictNoext target) with
    | some c => c
    | none => target

/-- `Resolver._shortest_relative_from_current`. -/
def shortest_relative_from_current (current : List String) (target : String) : String :=
  let base := current.dropLast
  let tgt := pathParse (target ++ ".md")
  joinPosix (withSuffixEmpty (pathParse (to_rel base tgt)))

/-- `Resolver.resolve_target_for_text_and_meta`:
`(text target without extension, metadata path with .md)`. -/
def resolve_target_for_text_and_meta (fs : FS) (mode : String)
    (current : List String) (raw : String) : String × Option String :=
  let targetPart := (pySplitFirst '|' raw).1  -- the alias part is ignored here
  let anchor := (pySplitFirst '#' targetPart).2
  let target := pyStrip (pySplitFirst '#' targetPart).1
  if target = "" then (raw, none)
  else
    let absNoExt := find_target_path fs current target
    let absNoExtClean := (pySplitFirst '#' absNoExt).1
    let shortest :=
      if mode = "relative" then shortest_relative_from_current current absNoExtClean
      else shortest_suffix_from_vault fs absNoExtClean
    let textTarget :=
      match anchor with
      | some a => if a ≠ "" then shortest ++ "#" ++ a else shortest
      | none => shortest
    (textTarget, some (absNoExtClean ++ ".md"))

/-- The same-directory/shortest/lexicographic ranking of
`Resolver.resolve_asset_for_text`, as a strict comparison.  The final
component (the relative-path string) is injective on distinct files, so the
ranking is a total order and the Python stable sort's first element is the
unique minimum. -/
def assetRankLt (base : List String) (p q : List String) : Bool :=
  let sd := fun (r : List String) => if r.dropLast = base then 0 else 1
  let rp := to_rel base p
  let rq := to_rel base q
  (sd p < sd q) ||
  (sd p = sd q && (rp.length < rq.length ||
    (rp.length = rq.length && strLt rp rq)))

/-- First minimum of a list under a strict comparison. -/
def minBy {α : Type} (lt : α → α → Bool) : List α → Option α
  | [] => none
  | x :: rest =>
    match minBy lt rest with
    | none => some x
    | some m => if lt m x then some m else some x

/-- `Resolver.resolve_asset_for_text`: resolve an attachment by basename
across the vault and return a path relative to the current note's folder.
Candidate enumeration order (`ROOT.rglob`) does not matter: the ranking is a
strict total order on the candidate set.  (The `rglob` pattern is the typed
basename; glob wildcard characters in it are not modelled — the basename is
matched literally.) -/
def resolve_asset_for_text (fs : FS) (current : List String) (raw : String) : String :=
  let target := pyStrip (pySplitFirst '|' raw).1
  if target = "" then raw
  else
    let base := current.dropLast
    let name := segName (pathParse target)
    let candidates :=
      if name.data.contains '.' then
        fs.paths.filter (fun f => segName f = name)
      else
        fs.paths.filter (fun f => ASSET_EXTS.any (fun ext => segName f = name ++ ext))
    match minBy (assetRankLt base) candidates with
    | none => name
    | some best =>
      let rel := to_rel base best
      if !(pyStartsWith rel "./" || pyStartsWith rel "../") && rel.data.contains '/'
          && !(pyStartsWith rel "/") then
        "./" ++ rel
      else rel

/-! ## `links.Resolver`: the two rewrite passes -/

/-- The replacement function of `Resolver.normalize_md_links_to_wikilinks`. -/
def mdLinkRepl (fs : FS) (current : List String) (m : MdM) (orig : String) : String :=
  let url := pyStrip m.url
  if pyStartsWith url "#" then orig
  else if schemeLike url then orig
  else
    let target := find_target_path fs current url
    let sfx := pyLower (pathSuffix (pathParse url))
    if m.bang || IMG_EXTS.contains sfx || ASSET_EXTS.contains sfx then
      "![[" ++ resolve_asset_for_text fs current url ++ "]]"
    else
      "[[" ++ target ++ "]]"

/-- `Resolver.normalize_md_links_to_wikilinks`. -/
def normalize_md_links_to_wikilinks (fs : FS) (current : List String) (text : String) : String :=
  ⟨subGo (fun l =>
      (mdTryAt l).map (fun m => (m.len, (mdLinkRepl fs current m ⟨l.take m.len⟩).data)))
    text.data⟩

/-- The replacement function of `Resolver.normalize_wikilinks_in_text`. -/
def wikiLinkRepl (fs : FS) (mode : String) (current : List String)
    (m : WikiM) (orig : String) : String :=
  let targetPart := (pySplitFirst '|' m.body).1
  let al := (pySplitFirst '|' m.body).2
  if m.bang then
    let assetRel := resolve_asset_for_text fs current targetPart
    match al with
    | some a => "![[" ++ assetRel ++ "|" ++ a ++ "]]"
    | none => "![[" ++ assetRel ++ "]]"
  else
    let textTarget := (resolve_target_for_text_and_meta fs mode current m.body).1
    if textTarget = "" || pyStrip textTarget = pyStrip m.body then orig
    else
      match al with
      | some a => "[[" ++ textTarget ++ "|" ++ a ++ "]]"
      | none => "[[" ++ textTarget ++ "]]"

/-- `Resolver.normalize_wikilinks_in_text`. -/
def normalize_wikilinks_in_text (fs : FS) (mode : String)
    (current : List String) (text : String) : String :=
  ⟨subGo (fun l =>
      (wikiTryAt l).map (fun m => (m.len, (wikiLinkRepl fs mode current m ⟨l.take m.len⟩).data)))
    text.data⟩

/-- Both passes in the order `indexer.process_file` applies them. -/
def normalizeBody (fs : FS) (mode : String) (current : List String) (text : String) : String :=
  normalize_wikilinks_in_text fs mode current
    (normalize_md_links_to_wikilinks fs current text)

/-! ## `parse.py`: headings, frontmatter and inline tags -/

/-- `FM_START = ^\s*---\s*$` applied to one line. -/
def fmStartLine (l : String) : Bool := pyStrip l = "---"

/-- `FM_END = ^\s*(---|\.\.\.)\s*$`. -/
def fmEndLine (l : String) : Bool := pyStrip l = "---" || pyStrip l = "..."

/-- `SETEXT_H1 = ^\s*={3,}\s*$`. -/
def setextH1Line (l : String) : Bool :=
  let t := (pyStrip l).data
  t.length ≥ 3 && t.all (· = '=')

/-- `SETEXT_H2 = ^\s*-{3,}\s*$`. -/
def setextH2Line (l : String) : Bool :=
  let t := (pyStrip l).data
  t.length ≥ 3 && t.all (· = '-')

/-- `ATX = ^(?P<hashes>#{1,6})\s*(?P<text>.+?)\s*#*\s*$` with Python
backtracking: hashes greedy (6 down to 1), the whitespace run greedy, the
text lazy, and the tail `\s*#*\s*$` checked on the remainder. -/
def atxMatch (l : String) : Option (Nat × String) :=
  let cs := l.data
  let hashRun := (cs.takeWhile (· = '#')).length
  let tryK (k : Nat) : Option (Nat × String) :=
    if k = 0 || k > hashRun then none
    else
      let rest := cs.drop k
      let wsRun := (rest.takeWhile isPyWs).length
      let tryM (m : Nat) : Option String :=
        let rest2 := rest.drop m
        -- lazy text: shortest nonempty prefix whose remainder is \s*#*\s*
        let tryT (t : Nat) : Option String :=
          if t = 0 || t > rest2.length then none
          else
            let tail := rest2.drop t
            let tail2 := (tail.dropWhile isPyWs).dropWhile (· = '#')
            if tail2.dropWhile isPyWs = [] then some ⟨rest2.take t⟩ else none
        (List.range (rest2.length + 1)).findSome? tryT
      ((List.range (wsRun + 1)).reverse.findSome? tryM).map (fun t => (k, t))
  ((List.range 7).reverse.findSome? tryK)

/-- One heading record: `{"heading": text, "level": level}`. -/
structure Heading where
  heading : String
  level : Nat
  deriving DecidableEq, Repr

/-- `parse.extract_headings` (ATX and Setext, using the previous line). -/
def extract_headings (lines : List String) : List Heading :=
  go "" lines
where
  go (prev : String) : List String → List Heading
    | [] => []
    | line :: rest =>
      match atxMatch line with
      | some (level, text) =>
        let t := pyStrip text
        if t ≠ "" then { heading := t, level := level } :: go line rest
        else go line rest
      | none =>
        if setextH1Line line then
          let t := pyStrip prev
          if t ≠ "" then { heading := t, level := 1 } :: go line rest else go line rest
        else if setextH2Line line then
          let t := pyStrip prev
          if t ≠ "" then { heading := t, level := 2 } :: go line rest else go line rest
        else go line rest

/-- A frontmatter value: the `tags:`/`aliases:` list form or a scalar string. -/
inductive FmVal where
  | vlist (items : List String)
  | vstr (s : String)
  deriving DecidableEq, Repr

/-- Python-dict update on an association list: an existing key keeps its
position, a new key is appended. -/
def dictSet (m : List (String × FmVal)) (k : String) (v : FmVal) : List (String × FmVal) :=
  if m.any (fun e => e.1 = k) then
    m.map (fun e => if e.1 = k then (k, v) else e)
  else m ++ [(k, v)]

def dictGet (m : List (String × FmVal)) (k : String) : Option FmVal :=
  (m.find? (fun e => e.1 = k)).map Prod.snd

/-- `^\s*(tags|aliases)\s*:\s*$`: returns the key when the line matches. -/
def fmListKeyLine (l : String) : Option String :=
  let rest := l.data.dropWhile isPyWs
  let tryKey (k : String) : Option String :=
    if k.data.isPrefixOf rest then
      let after := (rest.drop k.length).dropWhile isPyWs
      match after with
      | ':' :: tail => if tail.dropWhile isPyWs = [] then some k else none
      | _ => none
    else none
  match tryKey "tags" with
  | some k => some k
  | none => tryKey "aliases"

/-- `^\s*-\s*(.+?)\s*$`: a list item line; the captured group is the content
with trailing whitespace dropped (when all-whitespace, Python backtracking
captures the final whitespace character). -/
def fmItemLine (l : String) : Option String :=
  match l.data.dropWhile isPyWs with
  | '-' :: rest =>
    if rest = [] then none
    else
      let wsRun := (rest.takeWhile isPyWs).length
      if wsRun = rest.length then some ⟨[rest.getLastD ' ']⟩
      else some ⟨((rest.drop wsRun).reverse.dropWhile isPyWs).reverse⟩
  | _ => none

/-- `[A-Za-z0-9_.-]`. -/
def isFmKeyChar (c : Char) : Bool := c.isAlphanum || c = '_' || c = '.' || c = '-'

/-- `^\s*([A-Za-z0-9_.-]+)\s*:\s*(.*)$`: a simple key/value line. -/
def fmKvLine (l : String) : Option (String × String) :=
  let rest := l.data.dropWhile isPyWs
  let key := rest.takeWhile isFmKeyChar
  if key = [] then none
  else
    match (rest.drop key.length).dropWhile isPyWs with
    | ':' :: tail => some (⟨key⟩, ⟨tail.dropWhile isPyWs⟩)
    | _ => none

/-- The frontmatter block interpreter (the `for ln in block:` loop).
A line matching neither regex leaves both the dict and `cur_key` unchanged. -/
def fmBlockFold (block : List String) : List (String × FmVal) :=
  go [] none block
where
  go (fm : List (String × FmVal)) (curKey : Option String) :
      List String → List (String × FmVal)
    | [] => fm
    | ln :: rest =>
      match fmListKeyLine ln with
      | some k => go (dictSet fm k (.vlist [])) (some k) rest
      | none =>
        match fmItemLine ln with
        | some item =>
          if curKey = some "tags" || curKey = some "aliases" then
            let k := curKey.getD ""
            let fm' :=
              match dictGet fm k with
              | some (.vlist items) => dictSet fm k (.vlist (items ++ [item]))
              | _ => fm  -- unreachable: curKey is only set with a vlist entry
            go fm' curKey rest
          else
            match fmKvLine ln with
            | some (k, v) => go (dictSet fm k (.vstr v)) none rest
            | none => go fm curKey rest
        | none =>
          match fmKvLine ln with
          | some (k, v) => go (dictSet fm k (.vstr v)) none rest
          | none => go fm curKey rest

/-- `list(dict.fromkeys(fm.get(key, [])))`: a scalar value iterates its
characters (real Python behavior for `tags: a` written inline). -/
def fmGetList (fm : List (String × FmVal)) (k : String) : List String :=
  match dictGet fm k with
  | some (.vlist items) => pyDedup items
  | some (.vstr s) => pyDedup (s.data.map (fun c => (⟨[c]⟩ : String)))
  | none => []

/-- Result of `parse.parse_frontmatter_and_tags`. -/
structure ParseResult where
  fm : List (String × FmVal)
  tags : List String
  aliases : List String
  body : String
  /-- whether a terminated frontmatter block was split off
  (`body_start != 0`, i.e. Python's `body0 is not original`). -/
  hadFm : Bool
  deriving Repr

/-- `parse.parse_frontmatter_and_tags`. -/
def parse_frontmatter_and_tags (text : String) : ParseResult :=
  let lines := pySplitLines text
  let fmStart : List (String × FmVal) × Nat :=
    match lines with
    | l0 :: rest =>
      if fmStartLine l0 then
        let block := rest.takeWhile (fun l => !fmEndLine l)
        let i := 1 + block.length
        let bodyStart := if i < lines.length then i + 1 else 0
        (fmBlockFold block, bodyStart)
      else ([], 0)
    | [] => ([], 0)
  let fm := fmStart.1
  let bodyStart := fmStart.2
  let fmTags := fmGetList fm "tags"
  let aliases := fmGetList fm "aliases"
  let body := if bodyStart ≠ 0 then joinStr '\n' (lines.drop bodyStart) else text
  let bodyForTags := mdSub (fun _ => " ") (wikiSub (fun _ => " ") body)
  let inline := inlineTagMatches bodyForTags
  let tags :=
    if inline ≠ [] then pyDedup (fmTags ++ inline.filter (fun t => t ∉ fmTags))
    else fmTags
  { fm := fm, tags := tags, aliases := aliases, body := body, hadFm := bodyStart ≠ 0 }

/-! ## `indexer.py`: per-file processing and the metadata graph -/

/-- A forward link record (`links` item of a MetadataItem); `cleanLink` and
`displayText` model the optionally-present JSON fields. -/
structure LinkEntry where
  link : String
  relativePath : String
  cleanLink : Option String := none
  displayText : Option String := none
  deriving DecidableEq, Repr

/-- A backlink record. -/
structure BacklinkEntry where
  fileName : String
  link : String
  relativePath : String
  displayText : String
  deriving DecidableEq, Repr

/-- One MetadataItem.  Empty collections model omitted JSON fields;
`backlinks = none` models the absent `backlinks` field. -/
structure Item where
  fileName : String
  relativePath : String
  tags : List String := []
  aliases : List String := []
  frontmatter : List (String × FmVal) := []
  headings : List Heading := []
  links : List LinkEntry := []
  backlinks : Option (List BacklinkEntry) := none
  deriving Repr

/-- `(R.ROOT / meta).exists()`: the metadata path may contain `..` segments
(from the literal fallback); escaping the root is treated as non-existing. -/
def metaExists (fs : FS) (meta : String) : Bool :=
  match normSegs (pathParse meta) with
  | some q => fs.pexists q
  | none => false

/-- The LinkEntry produced by one wikilink match of the normalized body
(`none` when the match is skipped: attachments, anchor-only bodies, and
targets whose metadata path does not exist). -/
def wikiEntry? (fs : FS) (mode : String) (p : List String) (m : WikiM) :
    Option LinkEntry :=
  if m.bang then none
  else
    let targetPart := (pySplitFirst '|' m.body).1
    let display := (pySplitFirst '|' m.body).2
    match (resolve_target_for_text_and_meta fs mode p m.body).2 with
    | none => none
    | some meta =>
      if !metaExists fs meta then none
      else
        let entry :=
          if targetPart.data.contains '#' then
            { link := "#" ++ ((pySplitFirst '#' targetPart).2.getD ""),
              relativePath := meta,
              cleanLink := some (pyStemStr meta) : LinkEntry }
          else
            { link := segName (pathParse targetPart), relativePath := meta : LinkEntry }
        some { entry with
               displayText := match display with
                              | some d => if d ≠ "" then some d else none
                              | none => none }

/-- The LinkEntry produced by one pure-anchor Markdown link `[text](#a)` of
the normalized body (`none` for every other Markdown link). -/
def anchorEntry? (rel : String) (m : MdM) : Option LinkEntry :=
  let url := pyStrip m.url
  if pyStartsWith url "#" then
    let display :=
      if pyStrip m.text ≠ "" then pyStrip m.text
      else ⟨url.data.dropWhile (· = '#')⟩
    some { link := url, relativePath := rel,
           cleanLink := some (pyStemStr rel), displayText := some display }
  else none

/-- The dedup key `(link, relativePath, displayText)`. -/
def linkKey (e : LinkEntry) : String × String × Option String :=
  (e.link, e.relativePath, e.displayText)

/-- Result of `indexer.process_file`: the MetadataItem plus the file content
written back (`none` when the body is unchanged and no write happens). -/
structure ProcResult where
  item : Item
  written : Option String
  deriving Repr

/-- `indexer.process_file`. -/
def process_file (fs : FS) (mode : String) (p : List String) : ProcResult :=
  let rel := joinPosix p
  let original := fs.content p
  let pr := parse_frontmatter_and_tags original
  let stage1 := normalize_md_links_to_wikilinks fs p pr.body
  let norm := normalize_wikilinks_in_text fs mode p stage1
  let written :=
    if norm ≠ pr.body then
      some (if pr.hadFm then
              ⟨original.data.take (original.length - pr.body.length)⟩ ++ norm
            else norm)
    else none
  let headings := extract_headings (pySplitLines norm)
  let links0 :=
    (wikiMatches norm).filterMap (wikiEntry? fs mode p)
      ++ (mdMatches norm).filterMap (anchorEntry? rel)
  let links := pyDedupBy linkKey links0
  { item := { fileName := pathStem p, relativePath := rel,
              tags := pr.tags, aliases := pr.aliases, frontmatter := pr.fm,
              headings := headings, links := links },
    written := written }

/-- `dict.setdefault(k, []).append(v)` on an association list. -/
def assocAppend (m : List (String × List String)) (k v : String) :
    List (String × List String) :=
  if m.any (fun e => e.1 = k) then
    m.map (fun e => if e.1 = k then (k, e.2 ++ [v]) else e)
  else m ++ [(k, [v])]

/-- The `forward` map of `build_metadata`: target path → source paths. -/
def forwardMap (items : List Item) : List (String × List String) :=
  items.foldl
    (fun acc it => it.links.foldl (fun acc2 ln => assocAppend acc2 ln.relativePath it.relativePath) acc)
    []

/-- Lookup in the forward map (`forward.get(path, [])`). -/
def forwardGet (m : List (String × List String)) (k : String) : List String :=
  ((m.find? (fun e => e.1 = k)).map Prod.snd).getD []

/-- The backlink-inversion pass of `build_metadata`. -/
def addBacklinks (items : List Item) : List Item :=
  let fwd := forwardMap items
  items.map (fun it =>
    let srcs := forwardGet fwd it.relativePath
    if srcs.isEmpty then it
    else
      let thisName := pyStemStr it.relativePath
      { it with backlinks := some (srcs.map (fun src =>
          { fileName := pyStemStr src, link := thisName,
            relativePath := src, displayText := thisName })) })

/-- The per-file pass of `build_metadata`: `rglob` enumeration order is
filesystem-defined, so the scan is a parameter (the real run passes the
files in whatever order `os.scandir` yields them, with no sorting). -/
def buildItems (fs : FS) (scan : List (List String)) (mode : String) : List Item :=
  (scan.filter (fun p => fs.isFile p && isMdPath p)).map
    (fun p => (process_file fs mode p).item)

/-- `indexer.build_metadata` (the returned item list; serialization and the
write of `metadata.json` are not modelled). -/
def build_metadata (fs : FS) (scan : List (List String)) (mode : String) : List Item :=
  addBacklinks (buildItems fs scan mode)

/-! ## `deploy/webhook.py` -/

/-- 32-bit truncation. -/
def w32 (n : Nat) : Nat := n % 4294967296

/-- 32-bit right rotation. -/
def rotr (r x : Nat) : Nat := w32 ((x >>> r) ||| (x <<< (32 - r)))

/-- SHA-256 round constants. -/
def shaK : List Nat :=
  [1116352408, 1899447441, 3049323471, 3921009573, 961987163,
   1508970993, 2453635748, 2870763221, 3624381080, 310598401,
   607225278, 1426881987, 1925078388, 2162078206, 2614888103,
   3248222580, 3835390401, 4022224774, 264347078, 604807628,
   770255983, 1249150122, 1555081692, 1996064986, 2554220882,
   2821834349, 2952996808, 3210313671, 3336571891, 3584528711,
   113926993, 338241895, 666307205, 773529912, 1294757372,
   1396182291, 1695183700, 1986661051, 2177026350, 2456956037,
   2730485921, 2820302411, 3259730800, 3345764771, 3516065817,
   3600352804, 4094571909, 275423344, 430227734, 506948616,
   659060556, 883997877, 958139571, 1322822218, 1537002063,
   1747873779, 1955562222, 2024104815, 2227730452, 2361852424,
   2428436474, 2756734187, 3204031479, 3329325298]

/-- SHA-256 initial hash values. -/
def shaH0 : List Nat :=
  [1779033703, 3144134277, 1013904242, 2773480762,
   1359893119, 2600822924, 528734635, 1541459225]

/-- Big-endian bytes of `n`, `k` bytes wide. -/
def beBytes (k n : Nat) : List Nat :=
  (List.range k).reverse.map (fun i => (n >>> (8 * i)) % 256)

/-- SHA-256 message padding. -/
def shaPad (msg : List Nat) : List Nat :=
  let bitLen := 8 * msg.length
  let zeros := (64 - ((msg.length + 9) % 64)) % 64
  msg ++ [0x80] ++ List.replicate zeros 0 ++ beBytes 8 bitLen

/-- Split into 64-byte blocks (fueled to keep the recursion structural). -/
def blocks64F : Nat → List Nat → List (List Nat)
  | 0, _ => []
  | fuel + 1, l =>
    if l.length = 0 then []
    else if l.length < 64 then [l]  -- unreachable on padded input
    else l.take 64 :: blocks64F fuel (l.drop 64)

/-- Split into 64-byte blocks. -/
def blocks64 (l : List Nat) : List (List Nat) :=
  blocks64F l.length l

/-- Four big-endian bytes to a 32-bit word. -/
def wordsOf (block : List Nat) : List Nat :=
  match block with
  | b0 :: b1 :: b2 :: b3 :: rest => (((b0 * 256 + b1) * 256 + b2) * 256 + b3) :: wordsOf rest
  | _ => []

/-- The SHA-256 message schedule: extend 16 words to 64. -/
def shaSchedule (w : List Nat) (i : Nat) : List Nat :=
  match i with
  | 0 => w
  | j + 1 =>
    let w' := shaSchedule w j
    let g := fun (k : Nat) => w'.getD (w'.length - k) 0
    let s0 := (rotr 7 (g 15)).xor ((rotr 18 (g 15)).xor ((g 15) >>> 3))
    let s1 := (rotr 17 (g 2)).xor ((rotr 19 (g 2)).xor ((g 2) >>> 10))
    w' ++ [w32 (g 16 + s0 + g 7 + s1)]

/-- One round of the SHA-256 compression function. -/
def shaRound (st : List Nat) (kw : Nat × Nat) : List Nat :=
  match st with
  | [a, b, c, d, e, f, g, h] =>
    let s1 := (rotr 6 e).xor ((rotr 11 e).xor (rotr 25 e))
    let ch := (e.land f).xor ((e.xor 0xffffffff).land g)
    let temp1 := w32 (h + s1 + ch + kw.1 + kw.2)
    let s0 := (rotr 2 a).xor ((rotr 13 a).xor (rotr 22 a))
    let maj := ((a.land b).xor (a.land c)).xor (b.land c)
    let temp2 := w32 (s0 + maj)
    [w32 (temp1 + temp2), a, b, c, w32 (d + temp1), e, f, g]
  | other => other

/-- Compress one 64-byte block into the running hash state. -/
def shaCompress (state : List Nat) (block : List Nat) : List Nat :=
  let w := shaSchedule (wordsOf block) 48
  let st := (shaK.zip w).foldl shaRound state
  (state.zip st).map (fun ab => w32 (ab.1 + ab.2))

/-- SHA-256 of a byte list, as 32 bytes. -/
def sha256 (msg : List Nat) : List Nat :=
  let final := (blocks64 (shaPad msg)).foldl shaCompress shaH0
  final.flatMap (beBytes 4)

/-- Lower-case hex rendering of a byte list (`hexdigest()`). -/
def hexOfBytes (l : List Nat) : String :=
  ⟨l.flatMap (fun b => [hexDigit (b / 16), hexDigit (b % 16)])⟩
where
  hexDigit (n : Nat) : Char :=
    (("0123456789abcdef".data).getD n '0')

/-- HMAC-SHA-256 (`hmac.new(key, msg, hashlib.sha256)`), block size 64. -/
def hmacSha256 (key msg : List Nat) : List Nat :=
  let k0 := if key.length > 64 then sha256 key else key
  let kp := k0 ++ List.replicate (64 - k0.length) 0
  let ipad := kp.map (fun b => b.xor 0x36)
  let opad := kp.map (fun b => b.xor 0x5c)
  sha256 (opad ++ sha256 (ipad ++ msg))

/-- `hmac.new(SECRET, body, hashlib.sha256).hexdigest()`. -/
def hmacSha256Hex (key msg : List Nat) : String :=
  hexOfBytes (hmacSha256 key msg)

/-- `webhook.verify(sig_header, body)`.  The secret is the byte encoding of
the `GITHUB_WEBHOOK_SECRET` environment variable (empty when unset); a
missing header is `none`.  `hmac.compare_digest` is modelled as string
equality (its constant-time behavior has no functional content). -/
def verify (secret : List Nat) (sigHeader : Option String) (body : List Nat) : Bool :=
  if secret.isEmpty then false
  else
    match sigHeader with
    | none => false
    | some s =>
      if s = "" then false
      else if !pyStartsWith s "sha256=" then false
      else ("sha256=" ++ hmacSha256Hex secret body) = s

/-- Outcome of one request to the `/webhook` endpoint: whether the deploy
script was launched (`subprocess.Popen`) and the HTTP status returned. -/
structure WebhookOutcome where
  launched : Bool
  status : Nat
  deriving DecidableEq, Repr

/-- `webhook.webhook()`: abort(403) without launching when verification
fails, otherwise launch the deploy script and answer 200. -/
def webhook (secret : List Nat) (sigHeader : Option String) (body : List Nat) :
    WebhookOutcome :=
  if verify secret sigHeader body then { launched := true, status := 200 }
  else { launched := false, status := 403 }

/-! ## Spec-side definitions used by the claim statements -/

/-- Pass 1 leaves the Markdown-link match at this position unchanged. -/
def mdFixAt (fs : FS) (current : List String) (s' : List Char) : Bool :=
  match mdTryAt s' with
  | some m => (mdLinkRepl fs current m ⟨s'.take m.len⟩).data == s'.take m.len
  | none => true

/-- Pass 2 leaves the wikilink match at this position unchanged. -/
def wikiFixAt (fs : FS) (mode : String) (current : List String) (s' : List Char) : Bool :=
  match wikiTryAt s' with
  | some m => (wikiLinkRepl fs mode current m ⟨s'.take m.len⟩).data == s'.take m.len
  | none => true

/-- The sources of backlinks to `b`, read off directly: one occurrence of
`A.relativePath` per link entry of `A` whose `relativePath` is `b`, in item
order.  (`forwardMap` computes exactly this, see `forwardGet_forwardMap`.) -/
def collectSources (items : List Item) (b : String) : List String :=
  items.flatMap (fun it =>
    (it.links.filter (fun ln => ln.relativePath = b)).map (fun _ => it.relativePath))

/-! ## Supporting lemmas -/

theorem mem_tails_of_suffix {α : Type} {s l' l : List α}
    (h1 : s ∈ l'.tails) (h2 : l' <:+ l) : s ∈ l.tails := by
  rw [List.mem_tails] at h1 ⊢
  exact h1.trans h2

/-- When every match the scanner finds is replaced by the matched slice
itself, `re.sub` is the identity. -/
theorem subGoF_id (try_ : List Char → Option (Nat × List Char)) :
    ∀ (fuel : Nat) (s : List Char),
      (∀ s' ∈ s.tails, ∀ n r, try_ s' = some (n, r) → r = s'.take n) →
      subGoF try_ fuel s = s := by
  intro fuel
  induction fuel with
  | zero => intro s _; rfl
  | succ fuel ih =>
    intro s h
    match s with
    | [] => rfl
    | c :: rest =>
      have hrest : rest <:+ c :: rest := List.suffix_cons c rest
      have hihrest := ih rest (fun s' hs' => h s' (mem_tails_of_suffix hs' hrest))
      simp only [subGoF]
      cases htry : try_ (c :: rest) with
      | none => rw [hihrest]
      | some nr =>
        obtain ⟨n, r⟩ := nr
        have hr : r = (c :: rest).take n :=
          h (c :: rest) (by rw [List.mem_tails]) n r htry
        dsimp only
        by_cases hn0 : n = 0
        · subst hn0
          rw [if_pos rfl, hihrest]
        · rw [if_neg hn0]
          have hdropsuf : rest.drop (n - 1) <:+ c :: rest :=
            (List.drop_suffix (n - 1) rest).trans hrest
          rw [ih (rest.drop (n - 1))
                (fun s' hs' => h s' (mem_tails_of_suffix hs' hdropsuf))]
          subst hr
          have hd : rest.drop (n - 1) = (c :: rest).drop n := by
            cases n with
            | zero => exact absurd rfl hn0
            | succ k => simp
          rw [hd, List.take_append_drop]

/-- `subGo` version of `subGoF_id`. -/
theorem subGo_id (try_ : List Char → Option (Nat × List Char)) (s : List Char)
    (h : ∀ s' ∈ s.tails, ∀ n r, try_ s' = some (n, r) → r = s'.take n) :
    subGo try_ s = s :=
  subGoF_id try_ s.length s h

/-! ## Claim C1: idempotence of the two normalization passes -/

/-- C1 (counterexample).  The two passes are not idempotent: in the vault
`{dir/Note.md, sub/cur.md, sub/dir/Note/inner.md}` the directory
`sub/dir/Note` shadows the emitted target `dir/Note` when it is re-resolved
relative to `sub/cur.md`, so normalizing `[[dir/Note]]` yields
`[[sub/dir/Note]]`, and normalizing that output changes it back: the second
normalization of an already-normalized body is not a no-op. -/
theorem C1_counterexample :
    let fsC1 : FS :=
      ⟨[(["dir", "Note.md"], ""), (["sub", "cur.md"], ""),
        (["sub", "dir", "Note", "inner.md"], "")]⟩
    normalizeBody fsC1 "vault" ["sub", "cur.md"] "[[dir/Note]]" = "[[sub/dir/Note]]"
    ∧ normalizeBody fsC1 "vault" ["sub", "cur.md"] "[[sub/dir/Note]]" = "[[dir/Note]]"
    ∧ ("[[sub/dir/Note]]" : String) ≠ "[[dir/Note]]" := by
  refine ⟨by decide, by decide, by decide⟩

/-- C1 (amended).  Applying the two passes returns a body byte-identically
precisely when they reproduce each match they find: if at every position of
the text the Markdown-link pass rewrites its match to the match itself, and
likewise the wikilink pass (which holds whenever each wikilink body
re-resolves to its own text), then the composed normalization is a no-op on
that text.  This is the sense in which already-normalized text is stable;
the unconditional claim fails because re-resolution of an emitted target
can differ from the target (see the counterexample). -/
theorem C1_amended (fs : FS) (mode : String) (current : List String) (t : String)
    (hmd : ∀ s' ∈ t.data.tails, mdFixAt fs current s' = true)
    (hwiki : ∀ s' ∈ t.data.tails, wikiFixAt fs mode current s' = true) :
    normalizeBody fs mode current t = t := by
  have hpass1 : normalize_md_links_to_wikilinks fs current t = t := by
    show (⟨subGo _ t.data⟩ : String) = t
    rw [subGo_id _ t.data]
    intro s' hs' n r htry
    have hfix := hmd s' hs'
    unfold mdFixAt at hfix
    rw [Option.map_eq_some'] at htry
    obtain ⟨m, hm, hnr⟩ := htry
    rw [hm] at hfix
    cases hnr
    exact eq_of_beq hfix
  rw [show normalizeBody fs mode current t
        = normalize_wikilinks_in_text fs mode current
            (normalize_md_links_to_wikilinks fs current t) from rfl,
      hpass1]
  show (⟨subGo _ t.data⟩ : String) = t
  rw [subGo_id _ t.data]
  intro s' hs' n r htry
  have hfix := hwiki s' hs'
  unfold wikiFixAt at hfix
  rw [Option.map_eq_some'] at htry
  obtain ⟨m, hm, hnr⟩ := htry
  rw [hm] at hfix
  cases hnr
  exact eq_of_beq hfix

/-- C1 (witness).  A one-note vault where the wikilink body `b` re-resolves
to itself: normalization leaves `[[b]]` untouched. -/
theorem C1_amended_witness :
    normalizeBody ⟨[(["b.md"], "")]⟩ "vault" ["b.md"] "[[b]]" = "[[b]]" :=
  C1_amended ⟨[(["b.md"], "")]⟩ "vault" ["b.md"] "[[b]]" (by decide) (by decide)

/-! ## Claims C2 and C3: shortest-suffix uniqueness and resolution fallback -/

theorem pySplitFirst_go_no_sep (sep : Char) :
    ∀ (l acc : List Char), sep ∉ l →
      pySplitFirst.go sep acc l = (⟨(acc.reverse ++ l : List Char)⟩, none) := by
  intro l
  induction l with
  | nil => intro acc _; simp [pySplitFirst.go]
  | cons c rest ih =>
    intro acc hns
    have hc : ¬ c = sep := fun h => hns (h ▸ List.mem_cons_self c rest)
    have hrest : sep ∉ rest := fun h => hns (List.mem_cons_of_mem c h)
    simp only [pySplitFirst.go, if_neg hc]
    rw [ih (c :: acc) hrest]
    simp

/-- A string without the separator splits into itself. -/
theorem pySplitFirst_no_sep (sep : Char) (s : String) (h : ¬ s.data.contains sep) :
    pySplitFirst sep s = (s, none) := by
  unfold pySplitFirst
  rw [pySplitFirst_go_no_sep sep s.data [] (by simpa using h)]
  simp

/-- C2 (counterexample).  Both halves of the claim fail.  In the vault
`{b.md, x/b.md}` the two files share the stem `b`; the `vault`-mode shortest
reference for `b.md` is the bare stem `"b"`, and two files' root-relative
paths end with that suffix, so it does not uniquely identify the target.
In the vault `{a/x/Note.md, b/y/Note.md, cur.md}` the shortest reference
for `a/x/Note.md` is the (unique) suffix `"x/Note"`, but re-resolving it via
`find_target_path` falls back to the literal string `"x/Note"` — the
basename lookup ignores the directory qualifier and sees two candidates —
which is not the original file's extension-stripped root-relative path. -/
theorem C2_counterexample :
    let fsA : FS := ⟨[(["b.md"], ""), (["x", "b.md"], "")]⟩
    let fsB : FS := ⟨[(["a", "x", "Note.md"], ""), (["b", "y", "Note.md"], ""), (["cur.md"], "")]⟩
    (shortest_suffix_from_vault fsA "b" = "b"
      ∧ ((conflictNoextOf fsA "b").filter
          (fun c => pyEndsWith c ("/" ++ "b") || c = "b")).length = 2)
    ∧ (shortest_suffix_from_vault fsB "a/x/Note" = "x/Note"
      ∧ find_target_path fsB ["cur.md"] "x/Note" = "x/Note"
      ∧ ("x/Note" : String) ≠ "a/x/Note") := by
  exact ⟨⟨by decide, by decide⟩, by decide, by decide, by decide⟩

/-- C2 (amended).  Two parts.  (1) The `vault`-mode shortest reference is
either the bare stem (target directly under the root), a candidate suffix
accepted by the uniqueness test — among the extension-stripped root-relative
paths of all files sharing the target's basename or stem, exactly one ends
with that suffix and it is the target itself — or the full root-relative
path as a fallback; the two fallback forms need not be unique.  (2)
Re-resolving a returned reference via `find_target_path` yields back the
original file's extension-stripped root-relative path provided the
reference does not name an existing path relative to the current file's
directory and the basename-index lookup for its basename is unambiguous
(exactly the original file); with a shared basename the re-resolution can
instead degrade to the literal suffix (see the counterexample). -/
theorem C2_amended :
    (∀ (fs : FS) (target : String),
      let parts := pathParse target
      let S := shortest_suffix_from_vault fs target
      (parts.length = 1 ∧ S = segName parts)
      ∨ uniqueSuffix (conflictNoextOf fs (segName parts)) target S = true
      ∨ S = target)
    ∧ (∀ (fs : FS) (current : List String) (S : String) (ap tfile : List String),
      ¬ S.data.contains '#' → pyStrip S = S → S ≠ "" →
      resolveRel current (pathParse S) = some ap →
      fs.pexists ap = false →
      pyDedup (fs.indexGet (segName (pathParse S))
        ++ fs.indexGet (strip_md_ext (segName (pathParse S)))) = [tfile] →
      find_target_path fs current S = strip_md_ext (joinPosix tfile)) := by
  constructor
  · intro fs target
    simp only [shortest_suffix_from_vault]
    by_cases hlen : (pathParse target).length = 1
    · rw [if_pos hlen]; exact Or.inl ⟨hlen, rfl⟩
    · rw [if_neg hlen]
      cases hfind : List.find? (uniqueSuffix (conflictNoextOf fs (segName (pathParse target))) target)
          ((List.range' 2 ((pathParse target).length - 1)).map
            (fun take => joinPosix ((pathParse target).drop ((pathParse target).length - take)))) with
      | none => exact Or.inr (Or.inr rfl)
      | some c => exact Or.inr (Or.inl (List.find?_some hfind))
  · intro fs current S ap tfile hnohash hstrip hne hres hex huniq
    unfold find_target_path
    rw [pySplitFirst_no_sep '#' S hnohash]
    simp only [hstrip, if_neg hne, hres, hex, Bool.false_eq_true, if_false]
    unfold find_target_path.fallback
    simp only [huniq, anchorTruthy]
    simp

/-- C2 (witness).  In the vault `{d/n.md, cur.md}` the basename `n` is
unique; re-resolving the shortest reference `d/n` from `cur.md` returns the
original extension-stripped path `d/n`. -/
theorem C2_amended_witness :
    shortest_suffix_from_vault ⟨[(["d", "n.md"], ""), (["cur.md"], "")]⟩ "d/n" = "d/n"
    ∧ find_target_path ⟨[(["d", "n.md"], ""), (["cur.md"], "")]⟩ ["cur.md"] "d/n"
        = strip_md_ext (joinPosix ["d", "n.md"]) :=
  ⟨by decide,
   C2_amended.2 ⟨[(["d", "n.md"], ""), (["cur.md"], "")]⟩ ["cur.md"] "d/n"
     ["d", "n"] ["d", "n.md"] (by decide) (by decide) (by decide) (by decide)
     (by decide) (by decide)⟩

/-- C3 (confirmed).  When the typed target does not exist relative to the
current file's directory and the deduplicated basename-index lookup does
not produce exactly one match, `find_target_path` returns the typed path
(as parsed by `pathlib`) with any Markdown extension stripped, re-attaching
a nonempty `#anchor`; no error is raised on this path. -/
theorem C3_fallback_literal (fs : FS) (current : List String) (raw0 : String)
    (ap : List String)
    (htrim : pyStrip (pySplitFirst '#' raw0).1 ≠ "")
    (hres : resolveRel current (pathParse (pyStrip (pySplitFirst '#' raw0).1)) = some ap)
    (hex : fs.pexists ap = false)
    (hamb : (pyDedup (fs.indexGet (segName (pathParse (pyStrip (pySplitFirst '#' raw0).1)))
        ++ fs.indexGet (strip_md_ext (segName (pathParse (pyStrip (pySplitFirst '#' raw0).1)))))).length
      ≠ 1) :
    find_target_path fs current raw0 =
      strip_md_ext (joinPosix (pathParse (pyStrip (pySplitFirst '#' raw0).1)))
      ++ (if anchorTruthy (pySplitFirst '#' raw0).2 then
            "#" ++ ((pySplitFirst '#' raw0).2.getD "") else "") := by
  unfold find_target_path
  simp only [if_neg htrim, hres, hex, Bool.false_eq_true, if_false]
  unfold find_target_path.fallback
  have hnotone :
      ∀ (l : List (List String)), l.length ≠ 1 →
        (match l with
          | [p] => strip_md_ext (joinPosix p)
          | _ => strip_md_ext (joinPosix (pathParse (pyStrip (pySplitFirst '#' raw0).1))))
        = strip_md_ext (joinPosix (pathParse (pyStrip (pySplitFirst '#' raw0).1))) := by
    intro l hl
    match l with
    | [] => rfl
    | [p] => exact absurd rfl hl
    | _ :: _ :: _ => rfl
  rw [hnotone _ hamb]
  cases hanc : anchorTruthy (pySplitFirst '#' raw0).2 with
  | false => simp
  | true => simp [String.append_assoc]

/-- C3 (witness).  `ghost/note.md#sec` in a one-file vault: no relative
path exists, the basename lookup is empty, and the result is the literal
extension-stripped path with the anchor re-attached. -/
theorem C3_fallback_literal_witness :
    find_target_path ⟨[(["cur.md"], "")]⟩ ["cur.md"] "ghost/note.md#sec" = "ghost/note#sec" := by
  have h := C3_fallback_literal ⟨[(["cur.md"], "")]⟩ ["cur.md"] "ghost/note.md#sec"
    ["ghost", "note.md"] (by decide) (by decide) (by decide) (by decide)
  rw [h]
  decide

/-! ## Claim C4: file rewriting and frontmatter preservation -/

/-- C4 (code bug).  `process_file` rewrites only when the normalized body
differs, but the frontmatter is **not** preserved exactly: the header length
is computed as `len(original) - len(body)` while the body returned by the
parser lacks the file's trailing newline, so for a file ending in a newline
the written text keeps one extra byte of the *old* body between the
frontmatter block and the normalized body.  For
`"---\nk: v\n---\n[x](b)\n"` the code writes
`"---\nk: v\n---\n[" ++ "[[b]]"` instead of the documented
`header + normalized body` (`"---\nk: v\n---\n" ++ "[[b]]"`); an unchanged
body is still never rewritten. -/
theorem C4_frontmatter_corruption :
    let fsC4 : FS := ⟨[(["cur.md"], "---\nk: v\n---\n[x](b)\n")]⟩
    (process_file fsC4 "vault" ["cur.md"]).written = some "---\nk: v\n---\n[[[b]]"
    ∧ ("---\nk: v\n---\n[[[b]]" : String) ≠ "---\nk: v\n---\n" ++ "[[b]]"
    ∧ (process_file ⟨[(["a.md"], "plain text\n")]⟩ "vault" ["a.md"]).written = none := by
  exact ⟨by decide, by decide, by decide⟩

/-! ## Claim C5: backlink inversion -/

theorem find?_map_update (m : List (String × List String)) (k v b : String) :
    ((m.map (fun e => if e.1 = k then (k, e.2 ++ [v]) else e)).find?
        (fun e => e.1 = b))
      = (m.find? (fun e => e.1 = b)).map (fun e => if e.1 = k then (k, e.2 ++ [v]) else e) := by
  induction m with
  | nil => rfl
  | cons e rest ih =>
    by_cases hek : e.1 = k
    · by_cases heb : e.1 = b
      · simp [List.find?_cons, hek, heb, hek.symm.trans heb]
      · have : ¬ (k = b) := fun h => heb (hek.trans h)
        simp [List.find?_cons, hek, heb, this, ih]
    · by_cases heb : e.1 = b
      · have hbk : ¬ b = k := fun h => hek (heb.trans h)
        simp [List.find?_cons, hek, heb, hbk]
      · simp [List.find?_cons, hek, heb, ih]

theorem forwardGet_assocAppend (m : List (String × List String)) (k v b : String) :
    forwardGet (assocAppend m k v) b
      = forwardGet m b ++ (if b = k then [v] else []) := by
  unfold assocAppend forwardGet
  by_cases hk : m.any (fun e => e.1 = k)
  · rw [if_pos hk, find?_map_update]
    cases hfind : m.find? (fun e => e.1 = b) with
    | none =>
      have hbk : ¬ b = k := by
        intro hbk
        subst hbk
        obtain ⟨x, hx, hxk⟩ := List.any_eq_true.mp hk
        exact (List.find?_eq_none.mp hfind x hx) hxk
      simp [hfind, hbk]
    | some e =>
      have heb : e.1 = b := by simpa using List.find?_some hfind
      by_cases hbk : b = k
      · rw [if_pos hbk]
        simp [hfind, heb, hbk]
      · rw [if_neg hbk]
        have : ¬ (e.1 = k) := fun h => hbk (heb.symm.trans h)
        simp [hfind, this]
  · rw [if_neg hk, List.find?_append]
    have hnone : m.find? (fun e => e.1 = k) = none := by
      rw [List.find?_eq_none]
      intro x hx hxk
      exact hk (List.any_eq_true.mpr ⟨x, hx, hxk⟩)
    by_cases hbk : b = k
    · subst hbk
      simp [hnone]
    · cases hfind : m.find? (fun e => e.1 = b) with
      | none =>
        have hkb : ¬ k = b := fun h => hbk h.symm
        simp [hfind, Option.orElse, hkb, hbk]
      | some e => simp [hfind, hbk]

theorem forwardGet_foldl_links (src b : String) :
    ∀ (links : List LinkEntry) (acc : List (String × List String)),
      forwardGet (links.foldl (fun a ln => assocAppend a ln.relativePath src) acc) b
        = forwardGet acc b
          ++ (links.filter (fun ln => ln.relativePath = b)).map (fun _ => src) := by
  intro links
  induction links with
  | nil => intro acc; simp
  | cons ln rest ih =>
    intro acc
    simp only [List.foldl_cons]
    rw [ih, forwardGet_assocAppend]
    by_cases h : ln.relativePath = b
    · simp [List.filter_cons, h, List.append_assoc]
    · have : ¬ (b = ln.relativePath) := fun hh => h hh.symm
      simp [List.filter_cons, h, this]

theorem forwardGet_forwardMap (items : List Item) (b : String) :
    forwardGet (forwardMap items) b = collectSources items b := by
  unfold forwardMap
  suffices h : ∀ acc, forwardGet
      (items.foldl (fun acc it =>
        it.links.foldl (fun a2 ln => assocAppend a2 ln.relativePath it.relativePath) acc) acc) b
      = forwardGet acc b ++ collectSources items b by
    have := h []
    simpa [forwardGet] using this
  induction items with
  | nil => intro acc; simp [collectSources]
  | cons it rest ih =>
    intro acc
    simp only [List.foldl_cons]
    rw [ih, forwardGet_foldl_links]
    simp [collectSources, List.append_assoc]

/-- C5 (counterexample).  `A.md` holds `[[B]]` and `[[B|x]]`: two distinct
link entries with the same target `B.md`.  The inversion appends the source
once per link entry, so `B.md` receives **two** identical BacklinkEntry
records for the single distinct source file `A.md`, refuting "exactly one
BacklinkEntry per distinct source file". -/
theorem C5_counterexample :
    let fsC5 : FS := ⟨[(["A.md"], "[[B]]\n[[B|x]]"), (["B.md"], "")]⟩
    (build_metadata fsC5 [["A.md"], ["B.md"]] "vault").map Item.backlinks
      = [none,
         some [{ fileName := "A", link := "B", relativePath := "A.md", displayText := "B" },
               { fileName := "A", link := "B", relativePath := "A.md", displayText := "B" }]] := by
  decide

/-- C5 (amended).  After backlink inversion, every file `B`'s backlink list
contains one BacklinkEntry per link entry (counted with multiplicity, in
item-then-link order) of each source file `A` whose `relativePath` equals
`B`'s — so a source linking to `B` twice appears twice — each entry having
`fileName` = `A`'s stem, `relativePath` = `A`'s path, and both `link` and
`displayText` equal to `B`'s own stem; a file that is the target of no link
keeps no `backlinks` field. -/
theorem C5_amended (items : List Item) :
    addBacklinks items = items.map (fun it =>
      let srcs := collectSources items it.relativePath
      if srcs.isEmpty then it
      else { it with backlinks := some (srcs.map (fun src =>
        { fileName := pyStemStr src, link := pyStemStr it.relativePath,
          relativePath := src, displayText := pyStemStr it.relativePath })) }) := by
  unfold addBacklinks
  refine List.map_congr_left (fun it _ => ?_)
  rw [forwardGet_forwardMap]

/-! ## Claim C6: the LinkEntry invariant -/

theorem pyDedupBy_go_subset {α κ : Type} [DecidableEq κ] (key : α → κ) :
    ∀ (l : List α) (seen : List κ) (x : α), x ∈ pyDedupBy.go key seen l → x ∈ l := by
  intro l
  induction l with
  | nil => intro seen x h; exact absurd h (by simp [pyDedupBy.go])
  | cons a rest ih =>
    intro seen x h
    simp only [pyDedupBy.go] at h
    by_cases hk : key a ∈ seen
    · rw [if_pos hk] at h
      exact List.mem_cons_of_mem a (ih seen x h)
    · rw [if_neg hk] at h
      rcases List.mem_cons.mp h with h | h
      · exact h ▸ List.mem_cons_self a rest
      · exact List.mem_cons_of_mem a (ih _ x h)

theorem pyDedupBy_subset {α κ : Type} [DecidableEq κ] (key : α → κ) (l : List α)
    (x : α) (h : x ∈ pyDedupBy key l) : x ∈ l :=
  pyDedupBy_go_subset key l [] x h

theorem pyEndsWith_append (s suf : String) : pyEndsWith (s ++ suf) suf = true := by
  unfold pyEndsWith
  rw [String.data_append]
  exact (List.isSuffixOf_iff_suffix).mpr (List.suffix_append _ _)

/-- The metadata path returned by `resolve_target_for_text_and_meta` always
carries the `.md` extension appended to the cleaned resolved path. -/
theorem resolve_target_meta_shape (fs : FS) (mode : String) (current : List String)
    (raw : String) (meta : String)
    (h : (resolve_target_for_text_and_meta fs mode current raw).2 = some meta) :
    ∃ clean, meta = clean ++ ".md" := by
  simp only [resolve_target_for_text_and_meta] at h
  by_cases hempty : pyStrip (pySplitFirst '#' (pySplitFirst '|' raw).1).1 = ""
  · rw [if_pos hempty] at h
    exact absurd h (by simp)
  · rw [if_neg hempty] at h
    simp only [Option.some.injEq] at h
    exact ⟨_, h.symm⟩

/-- C6 (counterexample).  The existence check is `Path.exists()`, not
`is_file()`: in a vault containing the **directory** `Trick.md` (holding
`Trick.md/inner.md`) and `cur.md` with body `[[Trick]]`, the unresolvable
target degrades to the literal `Trick`, its metadata path `Trick.md` exists
on disk as a directory, and a LinkEntry is emitted whose `relativePath`
names no file. -/
theorem C6_counterexample :
    let fsC6 : FS := ⟨[(["Trick.md", "inner.md"], ""), (["cur.md"], "[[Trick]]")]⟩
    (process_file fsC6 "vault" ["cur.md"]).item.links
      = [{ link := "Trick", relativePath := "Trick.md" }]
    ∧ fsC6.isFile (pathParse "Trick.md") = false
    ∧ fsC6.pexists (pathParse "Trick.md") = true := by
  exact ⟨by decide, by decide, by decide⟩

/-- C6 (amended).  Every emitted LinkEntry's `relativePath` either ends in
`".md"` and passes the on-disk existence check (`Path.exists()`, which a
directory named `*.md` also satisfies — the path is not guaranteed to be a
*file*), or is the currently processed file's own root-relative path (the
pure-anchor Markdown-link entries; that file exists and carries a
recognized Markdown extension whenever the scan selected it).  Attachment
(image-prefixed) wikilink matches never produce a LinkEntry. -/
theorem C6_amended :
    (∀ (fs : FS) (mode : String) (p : List String),
      ∀ e ∈ (process_file fs mode p).item.links,
        (pyEndsWith e.relativePath ".md" = true ∧ metaExists fs e.relativePath = true)
        ∨ e.relativePath = joinPosix p)
    ∧ (∀ (fs : FS) (mode : String) (p : List String) (m : WikiM),
        m.bang = true → wikiEntry? fs mode p m = none) := by
  constructor
  · intro fs mode p e he
    have he0 : e ∈ (wikiMatches (normalize_wikilinks_in_text fs mode p
          (normalize_md_links_to_wikilinks fs p
            (parse_frontmatter_and_tags (fs.content p)).body))).filterMap (wikiEntry? fs mode p)
        ++ (mdMatches (normalize_wikilinks_in_text fs mode p
          (normalize_md_links_to_wikilinks fs p
            (parse_frontmatter_and_tags (fs.content p)).body))).filterMap
            (anchorEntry? (joinPosix p)) := pyDedupBy_subset _ _ e he
    rcases List.mem_append.mp he0 with hw | ha
    · -- a wikilink entry: relativePath is the metadata path, checked to exist
      obtain ⟨m, _hm, hsome⟩ := List.mem_filterMap.mp hw
      left
      unfold wikiEntry? at hsome
      by_cases hbang : m.bang
      · rw [if_pos hbang] at hsome; exact absurd hsome (by simp)
      · rw [if_neg hbang] at hsome
        cases hmeta : (resolve_target_for_text_and_meta fs mode p m.body).2 with
        | none => rw [hmeta] at hsome; exact absurd hsome (by simp)
        | some meta =>
          rw [hmeta] at hsome
          dsimp only at hsome
          obtain ⟨clean, hclean⟩ := resolve_target_meta_shape fs mode p m.body meta hmeta
          by_cases hexists : metaExists fs meta
          · rw [if_neg (by simp [hexists])] at hsome
            have hrel : e.relativePath = meta := by
              by_cases hhash : (pySplitFirst '|' m.body).1.data.contains '#'
              · simp only [if_pos hhash] at hsome
                cases hsome; rfl
              · simp only [if_neg hhash] at hsome
                cases hsome; rfl
            rw [hrel, hclean]
            exact ⟨pyEndsWith_append clean ".md", hclean ▸ hexists⟩
          · rw [if_pos (by simp [hexists])] at hsome
            exact absurd hsome (by simp)
    · -- a pure-anchor entry: relativePath is the current file itself
      obtain ⟨m, _hm, hsome⟩ := List.mem_filterMap.mp ha
      right
      unfold anchorEntry? at hsome
      by_cases hanch : pyStartsWith (pyStrip m.url) "#"
      · rw [if_pos hanch] at hsome
        cases hsome; rfl
      · rw [if_neg hanch] at hsome
        exact absurd hsome (by simp)
  · intro fs mode p m hbang
    unfold wikiEntry?
    rw [if_pos hbang]

/-- C6 (witness).  In the vault `{A.md ↦ "[[B]]", B.md}` the entry
`{link := B, relativePath := B.md}` is produced for `A.md`, and the
invariant disjunction holds for it. -/
theorem C6_amended_witness :
    (pyEndsWith "B.md" ".md" = true
      ∧ metaExists ⟨[(["A.md"], "[[B]]"), (["B.md"], "")]⟩ "B.md" = true)
    ∨ ("B.md" : String) = joinPosix ["A.md"] :=
  C6_amended.1 ⟨[(["A.md"], "[[B]]"), (["B.md"], "")]⟩ "vault" ["A.md"]
    { link := "B", relativePath := "B.md" } (by decide)

/-! ## Claim C7: attachment resolution -/

theorem pySplitFirst_go_fst (sep : Char) :
    ∀ (l acc : List Char),
      (pySplitFirst.go sep acc l).1.data
        = acc.reverse ++ l.takeWhile (fun c => !(c == sep)) := by
  intro l
  induction l with
  | nil => intro acc; simp [pySplitFirst.go]
  | cons c rest ih =>
    intro acc
    by_cases hc : c = sep
    · simp [pySplitFirst.go, hc]
    · simp only [pySplitFirst.go, if_neg hc]
      rw [ih (c :: acc)]
      simp [List.takeWhile_cons, hc]

/-- The part before the first separator is the `takeWhile` prefix. -/
theorem pySplitFirst_fst (sep : Char) (s : String) :
    (pySplitFirst sep s).1.data = s.data.takeWhile (fun c => !(c == sep)) := by
  unfold pySplitFirst
  rw [pySplitFirst_go_fst sep s.data []]
  simp

/-- Stripping a string whose first character is not whitespace is nonempty. -/
theorem pyStrip_cons_ne_empty (c : Char) (l : List Char) (hc : isPyWs c = false) :
    pyStrip ⟨c :: l⟩ ≠ "" := by
  intro h
  have hdata : (pyStrip ⟨c :: l⟩).data = [] := by rw [h]
  unfold pyStrip at hdata
  rw [List.dropWhile_cons_of_neg (by simp [hc])] at hdata
  have h2 : (c :: l).reverse.dropWhile isPyWs = [] := by
    simpa using congrArg List.reverse hdata
  have hall := List.dropWhile_eq_nil_iff.mp h2 c (by simp)
  rw [hc] at hall
  exact Bool.false_ne_true hall

/-- Stripping preserves a non-whitespace head character. -/
theorem pyStrip_head (c : Char) (l : List Char) (hc : isPyWs c = false) :
    ∃ l', (pyStrip ⟨c :: l⟩).data = c :: l' := by
  unfold pyStrip
  rw [List.dropWhile_cons_of_neg (by simp [hc])]
  rw [show (c :: l).reverse = l.reverse ++ [c] from by simp]
  rw [List.dropWhile_append]
  by_cases hmt : (l.reverse.dropWhile isPyWs).isEmpty
  · rw [if_pos hmt]
    rw [List.dropWhile_cons_of_neg (by simp [hc])]
    exact ⟨[], by simp⟩
  · rw [if_neg hmt]
    exact ⟨(l.reverse.dropWhile isPyWs).reverse, by simp⟩

/-- Chunks produced by `splitChar` never contain the separator. -/
theorem splitChar_no_sep (sep : Char) :
    ∀ (l : List Char) (ch : List Char), ch ∈ splitChar sep l → sep ∉ ch := by
  intro l
  induction l with
  | nil =>
    intro ch h
    simp only [splitChar] at h
    rcases List.mem_singleton.mp h with rfl
    simp
  | cons c rest ih =>
    intro ch h
    simp only [splitChar] at h
    by_cases hc : c = sep
    · rw [if_pos hc] at h
      rcases List.mem_cons.mp h with rfl | h
      · simp
      · exact ih ch h
    · rw [if_neg hc] at h
      cases hsplit : splitChar sep rest with
      | nil =>
        rw [hsplit] at h
        rcases List.mem_singleton.mp h with rfl
        intro hmem
        rcases List.mem_singleton.mp hmem with rfl
        exact hc rfl
      | cons chunk more =>
        rw [hsplit] at h
        rcases List.mem_cons.mp h with rfl | h
        · intro hmem
          rcases List.mem_cons.mp hmem with rfl | hmem
          · exact hc rfl
          · exact ih chunk (hsplit ▸ List.mem_cons_self chunk more) hmem
        · exact ih ch (hsplit ▸ List.mem_cons_of_mem chunk h)

/-- Segments of a parsed path contain no `/`. -/
theorem pathParse_seg_no_slash (s : String) (seg : String) (h : seg ∈ pathParse s) :
    '/' ∉ seg.data := by
  unfold pathParse at h
  obtain ⟨hmem, _⟩ := List.mem_filter.mp h
  obtain ⟨ch, hch, rfl⟩ := List.mem_map.mp hmem
  exact splitChar_no_sep '/' s.data ch hch

theorem minBy_mem {α : Type} (lt : α → α → Bool) :
    ∀ (l : List α) (x : α), minBy lt l = some x → x ∈ l := by
  intro l
  induction l with
  | nil => intro x h; exact absurd h (by simp [minBy])
  | cons a rest ih =>
    intro x h
    simp only [minBy] at h
    cases hm : minBy lt rest with
    | none => rw [hm] at h; cases h; exact List.mem_cons_self a rest
    | some m =>
      rw [hm] at h
      dsimp only at h
      by_cases hlt : lt m a
      · rw [if_pos hlt] at h
        cases h
        exact List.mem_cons_of_mem a (ih x hm)
      · rw [if_neg hlt] at h
        cases h
        exact List.mem_cons_self a rest

/-- Segment-level facts extracted from vault well-formedness. -/
theorem wfb_seg (fs : FS) (hwf : fs.wfb = true) (p : List String) (hp : p ∈ fs.paths)
    (seg : String) (hs : seg ∈ p) :
    seg ≠ "" ∧ seg ≠ "." ∧ '/' ∉ seg.data := by
  unfold FS.wfb at hwf
  obtain ⟨f, hf, hfp⟩ := List.mem_map.mp hp
  rw [Bool.and_eq_true] at hwf
  have hall := List.all_eq_true.mp hwf.2 f hf
  rw [Bool.and_eq_true] at hall
  have hseg := List.all_eq_true.mp hall.2 seg (hfp ▸ hs)
  simp only [Bool.and_eq_true, decide_eq_true_eq, Bool.not_eq_true'] at hseg
  obtain ⟨⟨⟨h1, h2⟩, _h3⟩, h4⟩ := hseg
  refine ⟨h1, h2, ?_⟩
  intro hmem
  simp at h4
  exact h4 hmem

/-- A rendered path whose segments are each `".."` or well-formed (nonempty,
not `"."`, no inner `/`) never starts with `"./../"`. -/
theorem joinPosix_no_dotslash (segs : List String)
    (hsegs : ∀ seg ∈ segs, seg = ".." ∨ (seg ≠ "" ∧ seg ≠ "." ∧ '/' ∉ seg.data)) :
    pyStartsWith (joinPosix segs) "./../" = false := by
  cases segs with
  | nil =>
    unfold joinPosix pyStartsWith
    decide
  | cons s0 rest =>
    rw [Bool.eq_false_iff]
    intro hpre
    unfold pyStartsWith at hpre
    have hpre' := List.isPrefixOf_iff_prefix.mp hpre
    obtain ⟨t, ht⟩ := hpre'
    have hdata : (joinPosix (s0 :: rest)).data
        = joinChars '/' (s0.data :: rest.map String.data) := by
      unfold joinPosix joinSegsChars
      simp
    rw [hdata] at ht
    have hs0 := hsegs s0 (List.mem_cons_self s0 rest)
    cases rest with
    | nil =>
      -- the join is s0 itself: a "./../" prefix puts a '/' inside s0
      simp only [List.map_nil, joinChars] at ht
      rcases hs0 with rfl | ⟨_, _, hnoslash⟩
      · -- s0 = "..": data ['.','.'] cannot extend "./../".data ++ t
        have : (2 : Nat) = 5 + t.length := by
          have := congrArg List.length ht
          simpa using this.symm
        omega
      · exact hnoslash (by rw [← ht]; simp)
    | cons r1 rs =>
      simp only [List.map_cons, joinChars] at ht
      -- joined = s0.data ++ '/' :: joinChars '/' (r1.data :: …)
      rcases hs0 with rfl | ⟨hne, hnedot, hnoslash⟩
      · -- s0 = "..": the second character of the join is '.', not '/'
        have : ('/' : Char) = '.' := by
          have := congrArg (fun l => l.get? 1) ht
          simpa using this.symm
        exact absurd this (by decide)
      · cases hs0d : s0.data with
        | nil => exact hne (by cases s0; simp_all)
        | cons c0 cs =>
          cases cs with
          | nil =>
            -- single-character segment: the prefix forces c0 = '.', i.e. s0 = "."
            rw [hs0d] at ht
            have hc0 : c0 = '.' := by
              have := congrArg (fun l => l.get? 0) ht
              simpa using this.symm
            apply hnedot
            cases s0
            simp_all
          | cons c1 cs' =>
            -- at least two characters: the prefix forces c1 = '/', inside s0
            rw [hs0d] at ht
            have hc1 : c1 = '/' := by
              have := congrArg (fun l => l.get? 1) ht
              simpa using this.symm
            exact hnoslash (by rw [hs0d, hc1]; simp)

/-- C7 (counterexample).  For the attachment `assets/img.png` referenced
from `notes/sub/a.md`, the rewritten link is `../../assets/img.png`
(two `..` segments, no `./` prefix), not the `./../assets/img.png` the
claim states — that form is never produced, since the `./` prefix is only
added to paths that do not already start with `../`. -/
theorem C7_counterexample :
    let fsC7 : FS := ⟨[(["assets", "img.png"], ""), (["notes", "sub", "a.md"], "")]⟩
    resolve_asset_for_text fsC7 ["notes", "sub", "a.md"] "img.png" = "../../assets/img.png"
    ∧ ("../../assets/img.png" : String) ≠ "./../assets/img.png" := by
  exact ⟨by decide, by decide⟩

/-- C7 (amended).  Attachment resolution returns the `os.path.relpath` of
the best-ranked candidate from the current file's directory.  On any
well-formed vault the result never starts with `"./../"` (the `./` prefix
is only added when the path does not already start with `./` or `../`);
the example from `notes/sub/a.md` to `assets/img.png` yields
`../../assets/img.png`, a same-directory attachment stays a bare basename
with no prefix, and a path descending into a subdirectory (containing `/`,
not `./`-, `../`- or `/`-prefixed) gets an explicit `./` prefix. -/
theorem C7_amended :
    (∀ (fs : FS) (current : List String) (raw : String), fs.wfb = true →
      pyStartsWith (resolve_asset_for_text fs current raw) "./../" = false)
    ∧ resolve_asset_for_text ⟨[(["assets", "img.png"], ""), (["notes", "sub", "a.md"], "")]⟩
        ["notes", "sub", "a.md"] "img.png" = "../../assets/img.png"
    ∧ resolve_asset_for_text
        ⟨[(["notes", "sub", "a.md"], ""), (["notes", "sub", "img.png"], ""),
          (["assets", "img.png"], "")]⟩
        ["notes", "sub", "a.md"] "img.png" = "img.png"
    ∧ resolve_asset_for_text ⟨[(["a.md"], ""), (["media", "x.png"], "")]⟩
        ["a.md"] "x" = "./media/x.png" := by
  refine ⟨?_, by decide, by decide, by decide⟩
  intro fs current raw hwf
  unfold resolve_asset_for_text
  by_cases hempty : pyStrip (pySplitFirst '|' raw).1 = ""
  · rw [if_pos hempty]
    -- the raw text cannot start with "./../": its first "|"-free chunk strips to ""
    rw [Bool.eq_false_iff]
    intro hpre
    obtain ⟨t, ht⟩ := List.isPrefixOf_iff_prefix.mp hpre
    have hfst : (pySplitFirst '|' raw).1.data
        = '.' :: List.takeWhile (fun c => !(c == '|')) ('/' :: '.' :: '.' :: '/' :: t) := by
      rw [pySplitFirst_fst '|' raw, ← ht]
      rw [show ("./../".data ++ t) = '.' :: '/' :: '.' :: '.' :: '/' :: t from rfl]
      rw [List.takeWhile_cons_of_pos (by decide)]
    have hkey : pyStrip (⟨'.' :: List.takeWhile (fun c => !(c == '|'))
        ('/' :: '.' :: '.' :: '/' :: t)⟩ : String) = "" := by
      rw [← hfst]
      exact hempty
    exact pyStrip_cons_ne_empty _ _ (by decide) hkey
  · rw [if_neg hempty]
    cases hmin : minBy (assetRankLt current.dropLast)
        (if (segName (pathParse (pyStrip (pySplitFirst '|' raw).1))).data.contains '.' then
          fs.paths.filter (fun f => segName f = segName (pathParse (pyStrip (pySplitFirst '|' raw).1)))
        else
          fs.paths.filter (fun f => ASSET_EXTS.any
            (fun ext => segName f = segName (pathParse (pyStrip (pySplitFirst '|' raw).1)) ++ ext))) with
    | none =>
      -- fallback: the bare basename contains no '/', so no "./../" prefix
      simp only [hmin]
      rw [Bool.eq_false_iff]
      intro hpre
      obtain ⟨t, ht⟩ := List.isPrefixOf_iff_prefix.mp hpre
      have hname : segName (pathParse (pyStrip (pySplitFirst '|' raw).1)) = ""
          ∨ '/' ∉ (segName (pathParse (pyStrip (pySplitFirst '|' raw).1))).data := by
        cases hsegs : pathParse (pyStrip (pySplitFirst '|' raw).1) with
        | nil => left; rfl
        | cons a as =>
          right
          refine pathParse_seg_no_slash (pyStrip (pySplitFirst '|' raw).1) _ ?_
          rw [hsegs]
          rw [show segName (a :: as)
                = (a :: as).getLast (List.cons_ne_nil a as) from by
              unfold segName
              rw [List.getLast?_eq_getLast (a :: as) (List.cons_ne_nil a as)]
              rfl]
          exact List.getLast_mem (List.cons_ne_nil a as)
      rcases hname with hname | hname
      · rw [hname] at ht
        have := congrArg List.length ht
        simp at this
      · apply hname
        rw [← ht]
        simp
    | some best =>
      simp only [hmin]
      have hbestmem : best ∈ fs.paths := by
        have hmem := minBy_mem _ _ _ hmin
        split at hmem
        · exact (List.mem_filter.mp hmem).1
        · exact (List.mem_filter.mp hmem).1
      set rel := to_rel current.dropLast best with hrel
      have hrelsegs : ∀ seg ∈ relpathSegs current.dropLast best,
          seg = ".." ∨ (seg ≠ "" ∧ seg ≠ "." ∧ '/' ∉ seg.data) := by
        intro seg hs
        unfold relpathSegs at hs
        rcases List.mem_append.mp hs with hs | hs
        · exact Or.inl (List.eq_of_mem_replicate hs)
        · exact Or.inr (wfb_seg fs hwf best hbestmem seg (List.drop_subset _ _ hs))
      have hrelpre : pyStartsWith rel "./../" = false := by
        rw [hrel]
        exact joinPosix_no_dotslash _ hrelsegs
      by_cases hcond : (!(pyStartsWith rel "./" || pyStartsWith rel "../")
          && rel.data.contains '/' && !(pyStartsWith rel "/")) = true
      · rw [if_pos hcond]
        -- "./" ++ rel starts with "./../" only when rel starts with "../"
        rw [Bool.eq_false_iff]
        intro hpre
        obtain ⟨t, ht⟩ := List.isPrefixOf_iff_prefix.mp hpre
        rw [String.data_append] at ht
        have hrel3 : pyStartsWith rel "../" = true := by
          unfold pyStartsWith
          rw [List.isPrefixOf_iff_prefix]
          refine ⟨t, ?_⟩
          have := ht
          simpa using this
        simp only [Bool.and_eq_true, Bool.not_eq_true', Bool.or_eq_false_iff] at hcond
        rw [hcond.1.1.2] at hrel3
        exact Bool.false_ne_true hrel3
      · rw [if_neg hcond]
        exact hrelpre

/-- C7 (witness).  The general no-`./../` property applied to the example
vault. -/
theorem C7_amended_witness :
    pyStartsWith (resolve_asset_for_text
      ⟨[(["assets", "img.png"], ""), (["notes", "sub", "a.md"], "")]⟩
      ["notes", "sub", "a.md"] "img.png") "./../" = false :=
  C7_amended.1 ⟨[(["assets", "img.png"], ""), (["notes", "sub", "a.md"], "")]⟩
    ["notes", "sub", "a.md"] "img.png" (by decide)

/-! ## Claim C8: one item per note file, in scan order -/

theorem addBacklinks_relativePath (items : List Item) :
    (addBacklinks items).map Item.relativePath = items.map Item.relativePath := by
  unfold addBacklinks
  rw [List.map_map]
  refine List.map_congr_left (fun it _ => ?_)
  dsimp only [Function.comp]
  by_cases h : (forwardGet (forwardMap items) it.relativePath).isEmpty
  · rw [if_pos h]
  · rw [if_neg h]

/-- C8 (counterexample).  `build_metadata` does not sort its own `rglob`
enumeration (only the Resolver's internal index is sorted): with the legal
filesystem enumeration order `[b.md, a.md]` of the two-file vault, the
emitted items are in that order, not in the sorted order `[a.md, b.md]`. -/
theorem C8_counterexample :
    let fsC8 : FS := ⟨[(["a.md"], ""), (["b.md"], "")]⟩
    (build_metadata fsC8 [["b.md"], ["a.md"]] "vault").map Item.relativePath = ["b.md", "a.md"]
    ∧ sortByStr [["b.md"], ["a.md"]] = [["a.md"], ["b.md"]]
    ∧ [["b.md"], ["a.md"]].Perm fsC8.paths
    ∧ (["b.md", "a.md"] : List String) ≠ ["a.md", "b.md"] := by
  exact ⟨by decide, by decide, by decide, by decide⟩

/-- C8 (amended).  `build_metadata` emits exactly one MetadataItem per
Markdown note file under the root, in the order of the filesystem scan
(`rglob`, modelled as an enumeration parameter since `os.scandir` order is
filesystem-defined and the code applies no sort to it): the item paths are
the scan's Markdown-file paths in scan order, and for any enumeration
covering the vault's files they are a permutation of all Markdown note
paths. -/
theorem C8_amended :
    (∀ (fs : FS) (scan : List (List String)) (mode : String),
      (build_metadata fs scan mode).map Item.relativePath
        = (scan.filter (fun p => fs.isFile p && isMdPath p)).map joinPosix)
    ∧ (∀ (fs : FS) (scan : List (List String)) (mode : String),
        scan.Perm fs.paths →
        ((build_metadata fs scan mode).map Item.relativePath).Perm
          ((fs.paths.filter isMdPath).map joinPosix)) := by
  have hbase : ∀ (fs : FS) (scan : List (List String)) (mode : String),
      (build_metadata fs scan mode).map Item.relativePath
        = (scan.filter (fun p => fs.isFile p && isMdPath p)).map joinPosix := by
    intro fs scan mode
    unfold build_metadata
    rw [addBacklinks_relativePath]
    unfold buildItems
    rw [List.map_map]
    rfl
  refine ⟨hbase, ?_⟩
  intro fs scan mode hperm
  rw [hbase]
  have h1 : (scan.filter (fun p => fs.isFile p && isMdPath p)).Perm
      (fs.paths.filter (fun p => fs.isFile p && isMdPath p)) := hperm.filter _
  have h2 : fs.paths.filter (fun p => fs.isFile p && isMdPath p)
      = fs.paths.filter isMdPath := by
    apply List.filter_congr
    intro p hp
    have hfile : fs.isFile p = true := by
      unfold FS.isFile
      rw [List.any_eq_true]
      obtain ⟨f, hf, hfp⟩ := List.mem_map.mp hp
      exact ⟨f, hf, by simp [hfp]⟩
    simp [hfile]
  exact (h2 ▸ h1).map joinPosix

/-- C8 (witness).  The permutation clause applied to the two-file vault
enumerated in reverse order. -/
theorem C8_amended_witness :
    ((build_metadata ⟨[(["a.md"], ""), (["b.md"], "")]⟩ [["b.md"], ["a.md"]] "vault").map
        Item.relativePath).Perm
      (((⟨[(["a.md"], ""), (["b.md"], "")]⟩ : FS).paths.filter isMdPath).map joinPosix) :=
  C8_amended.2 ⟨[(["a.md"], ""), (["b.md"], "")]⟩ [["b.md"], ["a.md"]] "vault" (by decide)

/-! ## Claim C9: inline-tag scanning and code spans -/

theorem splitChar_no_sep_single (sep : Char) :
    ∀ (l : List Char), sep ∉ l → splitChar sep l = [l] := by
  intro l
  induction l with
  | nil => intro _; rfl
  | cons c rest ih =>
    intro h
    have hc : ¬ c = sep := fun hh => h (hh ▸ List.mem_cons_self c rest)
    have hrest : sep ∉ rest := fun hh => h (List.mem_cons_of_mem c hh)
    simp only [splitChar, if_neg hc, ih hrest]

/-- A nonempty string without newlines is a single "line". -/
theorem pySplitLines_single (s : String) (hne : s ≠ "") (hnl : '\n' ∉ s.data) :
    pySplitLines s = [s] := by
  unfold pySplitLines
  rw [if_neg hne]
  have hlast : s.data.getLast? ≠ some '\n' := by
    intro h
    exact hnl (List.mem_of_mem_getLast? h)
  rw [if_neg hlast, splitChar_no_sep_single '\n' s.data hnl]
  rfl

theorem wikiBody_go_clean :
    ∀ (l acc : List Char), (∀ c ∈ l, c ≠ ']' ∧ c ≠ '\n') →
      wikiBody.go acc (l ++ [']', ']']) = some (acc.reverse ++ l) := by
  intro l
  induction l with
  | nil =>
    intro acc _
    simp [wikiBody.go]
  | cons c rest ih =>
    intro acc h
    have hc := h c (List.mem_cons_self c rest)
    have hrest : ∀ x ∈ rest, x ≠ ']' ∧ x ≠ '\n' :=
      fun x hx => h x (List.mem_cons_of_mem c hx)
    rw [List.cons_append]
    rw [show wikiBody.go acc (c :: (rest ++ [']', ']']))
          = if c = ']' ∧ (rest ++ [']', ']']).head? = some ']' then some acc.reverse
            else if c = '\n' then none
            else wikiBody.go (c :: acc) (rest ++ [']', ']']) from rfl]
    rw [if_neg (fun hand => hc.1 hand.1), if_neg hc.2, ih (c :: acc) hrest]
    simp

theorem subGoF_nil (try_ : List Char → Option (Nat × List Char)) (fuel : Nat) :
    subGoF try_ fuel [] = [] := by
  cases fuel <;> rfl

theorem subGoF_cons_match (try_ : List Char → Option (Nat × List Char))
    (fuel : Nat) (c : Char) (rest : List Char) (n : Nat) (repl : List Char)
    (htry : try_ (c :: rest) = some (n, repl)) (hn : n ≠ 0) :
    subGoF try_ (fuel + 1) (c :: rest) = repl ++ subGoF try_ fuel (rest.drop (n - 1)) := by
  rw [show subGoF try_ (fuel + 1) (c :: rest)
      = match try_ (c :: rest) with
        | some (n, repl) =>
          if n = 0 then c :: subGoF try_ fuel rest
          else repl ++ subGoF try_ fuel (rest.drop (n - 1))
        | none => c :: subGoF try_ fuel rest from rfl]
  rw [htry]
  dsimp only
  rw [if_neg hn]

/-- Replacing a whole-body wikilink: `WIKI_LINK.sub(' ', "[[s]]") = " "` for
a nonempty body without `]` or newline. -/
theorem wikiSub_blank (s : String) (hne : s ≠ "") (hnl : '\n' ∉ s.data)
    (hbr : ']' ∉ s.data) :
    wikiSub (fun _ => " ") ("[[" ++ s ++ "]]") = " " := by
  have hdne : s.data ≠ [] := by
    intro h
    apply hne
    cases s with
    | mk d => cases h; rfl
  obtain ⟨c0, tl, hd⟩ : ∃ c0 tl, s.data = c0 :: tl := by
    cases hsd : s.data with
    | nil => exact absurd hsd hdne
    | cons a b => exact ⟨a, b, rfl⟩
  have hdata : ("[[" ++ s ++ "]]").data = '[' :: '[' :: (s.data ++ [']', ']']) := by
    rw [String.data_append, String.data_append]
    rfl
  have hn0 : c0 ≠ '\n' := by
    intro h
    apply hnl
    rw [hd, h]
    exact List.mem_cons_self _ _
  have hbody : wikiBody (s.data ++ [']', ']']) = some s.data := by
    rw [hd, List.cons_append]
    unfold wikiBody
    dsimp only
    rw [if_neg hn0]
    have hgo := wikiBody_go_clean tl [c0] (fun x hx =>
      ⟨fun h => hbr (by rw [hd]; exact List.mem_cons_of_mem c0 (h ▸ hx)),
       fun h => hnl (by rw [hd]; exact List.mem_cons_of_mem c0 (h ▸ hx))⟩)
    rw [hgo]
    simp [hd]
  have htry : wikiTryAt ('[' :: '[' :: (s.data ++ [']', ']'])) =
      some { bang := false, body := ⟨s.data⟩, len := s.data.length + 4 } := by
    show (wikiBody (s.data ++ [']', ']'])).map
        (fun b => ({ bang := false, body := ⟨b⟩, len := b.length + 4 } : WikiM)) = _
    rw [hbody]
    rfl
  have htry2 : (fun l => (wikiTryAt l).map
        (fun m => (m.len, (((fun _ => " ") : WikiM → String) m).data)))
        ('[' :: '[' :: (s.data ++ [']', ']']))
      = some (s.data.length + 4, (" " : String).data) := by
    simp only [htry, Option.map]
  unfold wikiSub subGo
  rw [hdata]
  rw [show ('[' :: '[' :: (s.data ++ [']', ']'])).length = (s.data.length + 3) + 1 from by
    simp only [List.length_cons, List.length_append, List.length_nil]]
  rw [subGoF_cons_match _ _ _ _ _ _ htry2 (by omega)]
  rw [show ('[' :: (s.data ++ [']', ']'])).drop (s.data.length + 4 - 1) = [] from by
    rw [show s.data.length + 4 - 1 = ('[' :: (s.data ++ [']', ']'])).length from by
      simp only [List.length_cons, List.length_append, List.length_nil]
      omega]
    exact List.drop_length _]
  rw [subGoF_nil]
  rfl

/-- C9 (counterexample).  The pipeline's tag scanner
(`parse_frontmatter_and_tags`) blanks links but does **not** mask code:
a `#tag` inside a fenced code block, and one inside an inline code span,
are both collected. -/
theorem C9_counterexample :
    (parse_frontmatter_and_tags "```\n#conf\n```").tags = ["conf"]
    ∧ (parse_frontmatter_and_tags "`#x`").tags = ["x"] := by
  exact ⟨by decide, by decide⟩

/-- C9 (amended).  Inline hashtag scanning replaces wikilink and
Markdown-link matches with spaces before scanning, so a `#tag` inside a
wikilink body is never collected (for any body text `s` that forms a single
wikilink `[[s]]`, the collected tag list is empty); code spans, however,
are not masked — `CodeMasker` is used only by the `extract_inline_tags`
helper, which the pipeline never calls — so tags inside fenced or inline
code are collected (see the counterexample). -/
theorem C9_amended (s : String) (hne : s ≠ "") (hnl : '\n' ∉ s.data)
    (hbr : ']' ∉ s.data) :
    (parse_frontmatter_and_tags ("[[" ++ s ++ "]]")).tags = [] := by
  have hdne : s.data ≠ [] := by
    intro h
    apply hne
    cases s with
    | mk d => cases h; rfl
  have htne : ("[[" ++ s ++ "]]") ≠ "" := by
    intro h
    have : ("[[" ++ s ++ "]]").data = [] := by rw [h]
    rw [String.data_append] at this
    simp at this
  have htnl : '\n' ∉ ("[[" ++ s ++ "]]").data := by
    rw [String.data_append, String.data_append]
    intro h
    rcases List.mem_append.mp h with h | h
    · rcases List.mem_append.mp h with h | h
      · simp at h
      · exact hnl h
    · simp at h
  have hlines := pySplitLines_single _ htne htnl
  have hfmline : fmStartLine ("[[" ++ s ++ "]]") = false := by
    unfold fmStartLine
    rw [Bool.eq_false_iff]
    intro hfm
    have hfm' : pyStrip ("[[" ++ s ++ "]]") = "---" := by simpa using hfm
    have hdata2 : ("[[" ++ s ++ "]]").data = '[' :: ('[' :: s.data ++ [']', ']']) := by
      rw [String.data_append, String.data_append]
      simp
    obtain ⟨l', hl'⟩ : ∃ l', (pyStrip ("[[" ++ s ++ "]]")).data = '[' :: l' := by
      have := pyStrip_head '[' ('[' :: s.data ++ [']', ']']) (by decide)
      rw [show (⟨'[' :: ('[' :: s.data ++ [']', ']'])⟩ : String) = "[[" ++ s ++ "]]" from by
        apply congrArg String.mk hdata2.symm] at this
      exact this
    rw [hfm'] at hl'
    simp at hl'
  have hwiki := wikiSub_blank s hne hnl hbr
  unfold parse_frontmatter_and_tags
  rw [hlines]
  simp only [List.length_cons, List.length_nil, hfmline, Bool.false_eq_true, if_false]
  rw [show (if (0 : Nat) ≠ 0 then joinStr '\n' (List.drop 0 ["[[" ++ s ++ "]]"])
        else "[[" ++ s ++ "]]") = "[[" ++ s ++ "]]" from by simp]
  rw [hwiki]
  decide

/-- C9 (witness).  The tag `#hidden` inside `[[#hidden]]` is not collected. -/
theorem C9_amended_witness :
    (parse_frontmatter_and_tags "[[#hidden]]").tags = [] := by
  have h := C9_amended "#hidden" (by decide) (by decide) (by decide)
  simpa using h

/-! ## Claim C10: webhook signature gating -/

theorem pyStartsWith_append (p x : String) : pyStartsWith (p ++ x) p = true := by
  unfold pyStartsWith
  rw [String.data_append]
  exact List.isPrefixOf_iff_prefix.mpr (List.prefix_append _ _)

theorem sha_prefix_ne_empty (x : String) : ("sha256=" ++ x) ≠ "" := by
  intro h
  have hd := congrArg String.data h
  rw [String.data_append] at hd
  simp at hd

/-- C10 (confirmed).  The deploy-trigger endpoint launches the external
script iff the `X-Hub-Signature-256` header is exactly `"sha256=" +` the
HMAC-SHA-256 hex digest of the request body under the configured secret and
the secret is nonempty; every other request — in particular every request
when the secret environment variable is unset or empty — is answered 403
without the script being launched, and a verified request is answered 200.
(`hmac.compare_digest` is modelled as string equality; its constant-time
behavior and str-ASCII restriction are not modelled.) -/
theorem C10_webhook_gate (secret : List Nat) (sigHeader : Option String) (body : List Nat) :
    ((webhook secret sigHeader body).launched = true
      ↔ (secret ≠ [] ∧ sigHeader = some ("sha256=" ++ hmacSha256Hex secret body)))
    ∧ (webhook secret sigHeader body).status
        = (if (webhook secret sigHeader body).launched then 200 else 403) := by
  have hverify : verify secret sigHeader body = true
      ↔ (secret ≠ [] ∧ sigHeader = some ("sha256=" ++ hmacSha256Hex secret body)) := by
    unfold verify
    by_cases hsec : secret.isEmpty
    · rw [if_pos hsec]
      constructor
      · intro h
        exact absurd h (by simp)
      · rintro ⟨hne, _⟩
        exact absurd (List.isEmpty_iff.mp hsec) hne
    · rw [if_neg hsec]
      have hne : secret ≠ [] := fun h => hsec (List.isEmpty_iff.mpr h)
      cases sigHeader with
      | none => simp
      | some s' =>
        dsimp only
        by_cases hs0 : s' = ""
        · subst hs0
          rw [if_pos rfl]
          constructor
          · intro h
            exact absurd h (by simp)
          · rintro ⟨_, hh⟩
            have := Option.some.inj hh
            exact absurd this.symm (sha_prefix_ne_empty _)
        · rw [if_neg hs0]
          by_cases hpre : pyStartsWith s' "sha256="
          · rw [hpre]
            simp only [Bool.not_true, Bool.false_eq_true, if_false, decide_eq_true_eq]
            constructor
            · intro h
              exact ⟨hne, by rw [h]⟩
            · rintro ⟨_, hh⟩
              exact (Option.some.inj hh).symm
          · rw [Bool.not_eq_true] at hpre
            rw [hpre]
            simp only [Bool.not_false, if_true]
            constructor
            · intro h
              exact absurd h (by simp)
            · rintro ⟨_, hh⟩
              have hs := Option.some.inj hh
              rw [hs] at hpre
              rw [pyStartsWith_append] at hpre
              exact absurd hpre (by simp)
  constructor
  · unfold webhook
    by_cases hv : verify secret sigHeader body = true
    · rw [if_pos hv]
      simpa using hverify.mp hv
    · rw [if_neg hv]
      constructor
      · intro h
        exact absurd h (by simp)
      · intro h
        exact absurd (hverify.mpr h) hv
  · unfold webhook
    by_cases hv : verify secret sigHeader body = true
    · rw [if_pos hv]
      simp
    · rw [if_neg hv]
      simp

end Perlite
